import Mathlib

/-!
# Verification of the simple-sat watched-literal backtracking solver

A shallow embedding of the core of the `simple-sat` repository
(`satinstance.py`, `watchlist.py`, `iterative_sat.py`, `recursive_sat.py`)
together with proofs of the specification claims about it.

Modelling conventions:
* A variable is a dense index `0 ≤ v < n`; a literal is `v*2` (positive) or
  `v*2 + 1` (negated), exactly as produced by
  `SATInstance._parse_and_add_clause` (`variable << 1 | negated`).
* A clause is a `List Nat` of literals (Python stores `tuple(set(...))`;
  the tuple's iteration order is the scan order of `update_watchlist`).
* An instance is a clause list together with `n`, the number of variables.
* An assignment is a `List (Option Nat)` of length `n`; Python stores
  `None`, `0` (false) or `1` (true) at index `v`.
* A watchlist is a `List (List Clause)` of length `2*n`: queue `l` holds
  the clauses currently watching literal `l`; Python uses `deque`s, read
  at the front (`[0]`, `del ...[0]`) and extended at the back (`append`).
* The Python generators are modelled as functions returning the list of
  all yielded assignments (each yield is the value of the shared buffer
  at the moment of the yield).
-/

abbrev Clause := List Nat
abbrev Assignment := List (Option Nat)
abbrev Watchlist := List (List Clause)

/-! ## Literal encoding (`satinstance.py`) -/

/-- `encoded_literal = self.variable_table[variable] << 1 | negated`. -/
def encode_literal (v negated : Nat) : Nat := v <<< 1 ||| negated

/-- To get a literal's variable we shift to the right (`l >> 1`). -/
def literal_variable (l : Nat) : Nat := l >>> 1

/-- The lowest bit of a literal tells whether it is negated (`l & 1`). -/
def literal_polarity (l : Nat) : Nat := l &&& 1

/-- To negate a literal we toggle the lowest bit (`l ^ 1`). -/
def negate_literal (l : Nat) : Nat := l ^^^ 1

/-! ## Semantic notions (used to state soundness/completeness)

`update_watchlist` treats literal `l` as non-false when the variable is
unassigned or assigned `(l & 1) ^ 1`; accordingly literal `l` is true
under an assignment when its variable is assigned `(l & 1) ^ 1`, and
false when it is assigned `l & 1`. -/

/-- Literal `l` is true under `asg`. -/
@[reducible] def litTrue (asg : Assignment) (l : Nat) : Prop :=
  asg.getD (l >>> 1) none = some ((l &&& 1) ^^^ 1)

/-- Literal `l` is false under `asg` (its variable is assigned the
falsifying value; an unassigned variable makes the literal non-false). -/
@[reducible] def litFalse (asg : Assignment) (l : Nat) : Prop :=
  asg.getD (l >>> 1) none = some (l &&& 1)

/-- A clause is satisfied when at least one of its literals is true. -/
@[reducible] def clauseSat (asg : Assignment) (c : Clause) : Prop :=
  ∃ l ∈ c, litTrue asg l

/-- An assignment satisfies an instance when every clause is satisfied. -/
@[reducible] def instSat (asg : Assignment) (clauses : List Clause) : Prop :=
  ∀ c ∈ clauses, clauseSat asg c

/-- A total assignment over variables `0..n-1`: length `n`, every
variable bound to `0` or `1`. -/
@[reducible] def totalAsg (n : Nat) (asg : Assignment) : Prop :=
  asg.length = n ∧ ∀ i < n, ∃ v, v < 2 ∧ asg.getD i none = some v

/-- Every bound variable carries value `0` or `1` (Python only ever
stores `None`, `0` or `1` in the assignment buffer). -/
@[reducible] def asgValues (asg : Assignment) : Prop :=
  ∀ i v, asg.getD i none = some v → v < 2

/-- Well-formed instance, as guaranteed by the parser: clauses are
nonempty (a clause line has at least one token) and every literal is in
range `[0, 2n)`. -/
@[reducible] def WFInstance (clauses : List Clause) (n : Nat) : Prop :=
  ∀ c ∈ clauses, c ≠ [] ∧ ∀ l ∈ c, l < 2 * n

/-! ## The watchlist (`watchlist.py`) -/

/-- `setup_watchlist`: allocate `2n` empty queues and make every clause
watch its first literal (`watchlist[clause[0]].append(clause)`). -/
def setup_watchlist (clauses : List Clause) (n : Nat) : Watchlist :=
  clauses.foldl
    (fun wl clause => wl.set (clause.headD 0) (wl.getD (clause.headD 0) [] ++ [clause]))
    (List.replicate (2 * n) [])

/-- The alternative test of `update_watchlist`:
`assignment[v] is None or assignment[v] == a ^ 1`
where `v = alternative >> 1` and `a = alternative & 1`. -/
def is_watchable (assignment : Assignment) (alternative : Nat) : Bool :=
  match assignment.getD (alternative >>> 1) none with
  | none => true
  | some x => x == (alternative &&& 1) ^^^ 1

/-- `for alternative in clause: ... break`: the first literal of the
clause passing the alternative test, if any. -/
def find_alternative (assignment : Assignment) (clause : Clause) : Option Nat :=
  clause.find? (is_watchable assignment)

/-- One fuel-indexed unfolding of the `while watchlist[false_literal]:`
loop of `update_watchlist`.  Each iteration pops the front clause of the
false literal's queue; if some alternative literal is watchable the
clause is deleted from the front (`del watchlist[false_literal][0]`) and
appended to the alternative's queue, otherwise the function reports the
contradiction, leaving the clause in place.  `none` models running out
of fuel; `update_go_terminates` below shows that fuel equal to the
initial queue length suffices whenever `false_literal` is indeed false
under the assignment, which holds at every call site. -/
def update_go (assignment : Assignment) (false_literal : Nat) :
    Nat → Watchlist → Option (Bool × Watchlist)
  | 0, _ => none
  | fuel + 1, wl =>
    match wl.getD false_literal [] with
    | [] => some (true, wl)
    | clause :: rest =>
      match find_alternative assignment clause with
      | none => some (false, wl)
      | some alternative =>
        let wl1 := wl.set false_literal rest
        let wl2 := wl1.set alternative (wl1.getD alternative [] ++ [clause])
        update_go assignment false_literal fuel wl2

/-- `update_watchlist`: makes every clause watching `false_literal`
watch something else; returns `false` (and the watchlist as mutated so
far) if some clause is contradicted.  The fuel default is unreachable at
all call sites (`update_go_terminates`). -/
def update_watchlist (assignment : Assignment) (false_literal : Nat)
    (wl : Watchlist) : Bool × Watchlist :=
  (update_go assignment false_literal ((wl.getD false_literal []).length + 1) wl).getD
    (false, wl)

/-! ## The recursive solver (`recursive_sat.py`)

`_solve(instance, watchlist, assignment, d, verbose)` tries
`assignment[d] = 0` then `assignment[d] = 1`, recursing on success of the
corresponding watchlist update, and finally resets `assignment[d]`.
The model threads the mutable watchlist and assignment buffers and
returns the yielded assignments together with both buffers' final
values. -/

namespace recursive_sat

/-- The recursive generator `_solve`; returns
`(yields, final watchlist, final assignment)`. -/
def solveAux (n : Nat) (asg : Assignment) (wl : Watchlist) (d : Nat) :
    List Assignment × Watchlist × Assignment :=
  if n ≤ d then ([asg], wl, asg)
  else
    let asg0 := asg.set d (some 0)
    let u0 := update_watchlist asg0 (d <<< 1 ||| 0) wl
    let r0 := if u0.1 then solveAux n asg0 u0.2 (d + 1) else ([], u0.2, asg0)
    let asg1 := r0.2.2.set d (some 1)
    let u1 := update_watchlist asg1 (d <<< 1 ||| 1) r0.2.1
    let r1 := if u1.1 then solveAux n asg1 u1.2 (d + 1) else ([], u1.2, asg1)
    (r0.1 ++ r1.1, r1.2.1, r1.2.2.set d none)
termination_by n - d
decreasing_by all_goals omega

/-- `recursive_sat.solve`: build the watchlist, reject the degenerate
`n = 0` case (`if not watchlist: return []`), and run `_solve` from
depth 0 on the all-`None` assignment. -/
def solve (clauses : List Clause) (n : Nat) : List Assignment :=
  let wl := setup_watchlist clauses n
  if wl.isEmpty then []
  else (solveAux n (List.replicate n none) wl 0).1

end recursive_sat

/-! ## The iterative solver (`iterative_sat.py`)

The `while True:` loop is modelled as a step function on the loop state
`(state, assignment, d, watchlist)`; one step is one execution of the
loop body.  `state[d]` records which values were tried at depth `d`
(bit 0 = `False` tried, bit 1 = `True` tried). -/

namespace iterative_sat

structure IterState where
  state : List Nat
  assignment : Assignment
  d : Nat
  watchlist : Watchlist
deriving Repr, DecidableEq

/-- Result of one execution of the loop body: stop (`return`), continue
with a new state, or yield the current assignment and continue. -/
inductive StepRes where
  | done : StepRes
  | cont : IterState → StepRes
  | emit : Assignment → IterState → StepRes
deriving Repr, DecidableEq

/-- The tail of the `for a in [0, 1]` trial loop, from the point where
`a = 1` is considered.  `triedSomething` records whether `a = 0` was
tried earlier in this iteration. -/
def stepTrue (σ : IterState) (triedSomething : Bool) : StepRes :=
  let s := σ.state.getD σ.d 0
  if (s >>> 1) &&& 1 = 0 then
    let st1 := σ.state.set σ.d (s ||| (1 <<< 1))
    let asg1 := σ.assignment.set σ.d (some 1)
    let u1 := update_watchlist asg1 (σ.d <<< 1 ||| 1) σ.watchlist
    if u1.1 then StepRes.cont ⟨st1, asg1, σ.d + 1, u1.2⟩
    else StepRes.cont ⟨st1, asg1.set σ.d none, σ.d, u1.2⟩
  else if triedSomething then StepRes.cont σ
  else if σ.d = 0 then StepRes.done
  else StepRes.cont ⟨σ.state.set σ.d 0, σ.assignment.set σ.d none, σ.d - 1, σ.watchlist⟩

/-- One execution of the body of the iterative solver's `while True:`
loop. -/
def step (n : Nat) (σ : IterState) : StepRes :=
  if σ.d = n then
    StepRes.emit σ.assignment ⟨σ.state, σ.assignment, σ.d - 1, σ.watchlist⟩
  else
    let s := σ.state.getD σ.d 0
    if (s >>> 0) &&& 1 = 0 then
      let st0 := σ.state.set σ.d (s ||| (1 <<< 0))
      let asg0 := σ.assignment.set σ.d (some 0)
      let u0 := update_watchlist asg0 (σ.d <<< 1 ||| 0) σ.watchlist
      if u0.1 then StepRes.cont ⟨st0, asg0, σ.d + 1, u0.2⟩
      else stepTrue ⟨st0, asg0.set σ.d none, σ.d, u0.2⟩ true
    else stepTrue σ false

/-- Run the loop for at most `fuel` iterations, collecting the yields;
`none` when the fuel runs out first. -/
def run (n : Nat) : Nat → IterState → Option (List Assignment)
  | 0, _ => none
  | fuel + 1, σ =>
    match step n σ with
    | StepRes.done => some []
    | StepRes.cont σ1 => run n fuel σ1
    | StepRes.emit out σ1 => (run n fuel σ1).map (fun ys => out :: ys)

/-- The initial loop state: `state = [0]*n`, `assignment = [None]*n`,
`d = 0`. -/
def initState (clauses : List Clause) (n : Nat) : IterState :=
  ⟨List.replicate n 0, List.replicate n none, 0, setup_watchlist clauses n⟩

/-- `iterative_sat.solve`: the Python loop has no fuel; `2 ^ (n + 2)`
iterations are proved sufficient (`run_init_terminates`), so the default
branch is unreachable. -/
def solve (clauses : List Clause) (n : Nat) : List Assignment :=
  let wl := setup_watchlist clauses n
  if wl.isEmpty then []
  else (run n (2 ^ (n + 2)) (initState clauses n)).getD []

end iterative_sat

/-! ## Arithmetic bridges for the bit-level literal encoding -/

theorem two_mul_lor (q a : Nat) (h : a < 2) : 2 * q ||| a = 2 * q + a := by
  apply Nat.eq_of_testBit_eq
  intro i
  rw [Nat.testBit_or]
  cases i with
  | zero =>
    have e1 : 2 * q % 2 = 0 := by omega
    have e2 : (2 * q + a) % 2 = a := by omega
    simp only [Nat.testBit_zero, e1, e2]
    rcases (by omega : a = 0 ∨ a = 1) with rfl | rfl <;> simp
  | succ j =>
    have h0 : a / 2 = 0 := by omega
    have h1 : 2 * q / 2 = q := by omega
    have h2 : (2 * q + a) / 2 = q := by omega
    simp only [Nat.testBit_succ, h0, h1, h2, Nat.zero_testBit, Bool.or_false]

theorem add_xor_one (q a : Nat) (h : a < 2) : (2 * q + a) ^^^ 1 = 2 * q + (1 - a) := by
  apply Nat.eq_of_testBit_eq
  intro i
  rw [Nat.testBit_xor]
  cases i with
  | zero =>
    have e1 : (2 * q + a) % 2 = a := by omega
    have e2 : (2 * q + (1 - a)) % 2 = 1 - a := by omega
    simp only [Nat.testBit_zero, e1, e2]
    rcases (by omega : a = 0 ∨ a = 1) with rfl | rfl <;> simp
  | succ j =>
    have h0 : (1 : Nat) / 2 = 0 := by omega
    have h2 : (2 * q + a) / 2 = q := by omega
    have h3 : (2 * q + (1 - a)) / 2 = q := by omega
    simp only [Nat.testBit_succ, h0, h2, h3, Nat.zero_testBit, Bool.bne_false]

/-- `d << 1 | a`, the falsified literal computed by both solvers, equals
`2*d + a`. -/
theorem shiftLeft_lor_eq (d a : Nat) (h : a < 2) : d <<< 1 ||| a = 2 * d + a := by
  have h1 : d <<< 1 = 2 * d := by rw [Nat.shiftLeft_eq]; ring
  rw [h1, two_mul_lor d a h]

theorem lit_var (d a : Nat) (h : a < 2) : (2 * d + a) >>> 1 = d := by
  rw [Nat.shiftRight_one]; omega

theorem lit_pol (d a : Nat) (h : a < 2) : (2 * d + a) &&& 1 = a := by
  rw [Nat.and_one_is_mod]; omega

/-- Every literal decomposes as `2 * (l >> 1) + (l & 1)`. -/
theorem lit_decomp (l : Nat) : l = 2 * (l >>> 1) + (l &&& 1) := by
  rw [Nat.shiftRight_one, Nat.and_one_is_mod]; omega

theorem lit_pol_lt (l : Nat) : l &&& 1 < 2 := by
  rw [Nat.and_one_is_mod]; omega

/-- The variables of `i` and `d << 1 | a` coincide iff `i` is one of the
two literals of variable `d`. -/
theorem var_eq_iff (i d : Nat) : i >>> 1 = d ↔ i = 2 * d ∨ i = 2 * d + 1 := by
  rw [Nat.shiftRight_one]; omega

/-! ## Small list helpers (`getD`/`set` calculus) -/

theorem getD_set_self {α : Type} (l : List α) (i : Nat) (v dflt : α)
    (h : i < l.length) : (l.set i v).getD i dflt = v := by
  induction l generalizing i with
  | nil => simp at h
  | cons x xs ih =>
    cases i with
    | zero => rfl
    | succ j => simpa using ih j (by simpa using h)

theorem getD_set_ne {α : Type} (l : List α) (i j : Nat) (v dflt : α)
    (h : i ≠ j) : (l.set i v).getD j dflt = l.getD j dflt := by
  induction l generalizing i j with
  | nil => rfl
  | cons x xs ih =>
    cases i with
    | zero =>
      cases j with
      | zero => exact absurd rfl h
      | succ j2 => rfl
    | succ i2 =>
      cases j with
      | zero => rfl
      | succ j2 => simpa using ih i2 j2 (by omega)

/-- Setting an entry that already reads as the default to the default is
the identity. -/
theorem set_getD_default {α : Type} (l : List α) (i : Nat) (dflt : α)
    (h : l.getD i dflt = dflt) : l.set i dflt = l := by
  induction l generalizing i with
  | nil => rfl
  | cons x xs ih =>
    cases i with
    | zero => simp_all [List.getD]
    | succ j =>
      simp only [List.set]
      rw [ih j (by simpa [List.getD] using h)]

theorem getD_replicate_self {α : Type} (m i : Nat) (x : α) :
    (List.replicate m x).getD i x = x := by
  induction m generalizing i with
  | zero => rfl
  | succ k ih =>
    cases i with
    | zero => rfl
    | succ j => simpa [List.replicate] using ih j

theorem getD_eq_getElem {α : Type} (l : List α) (i : Nat) (dflt : α)
    (h : i < l.length) : l.getD i dflt = l[i] := by
  induction l generalizing i with
  | nil => simp at h
  | cons x xs ih =>
    cases i with
    | zero => rfl
    | succ j => simpa using ih j (by simpa using h)

theorem getD_of_length_le {α : Type} (l : List α) (i : Nat) (dflt : α)
    (h : l.length ≤ i) : l.getD i dflt = dflt := by
  induction l generalizing i with
  | nil => rfl
  | cons x xs ih =>
    cases i with
    | zero => simp at h
    | succ j => simpa using ih j (by simpa using h)

/-- Lists of the same length agreeing on `getD` everywhere are equal. -/
theorem eq_of_getD_eq {α : Type} (l1 l2 : List α) (dflt : α)
    (hlen : l1.length = l2.length)
    (h : ∀ i, l1.getD i dflt = l2.getD i dflt) : l1 = l2 := by
  apply List.ext_getElem hlen
  intro i h1 h2
  rw [← getD_eq_getElem l1 i dflt h1, ← getD_eq_getElem l2 i dflt h2]
  exact h i

/-! ## Watchability bridges -/

theorem is_watchable_iff (asg : Assignment) (l : Nat) :
    is_watchable asg l = true ↔
      asg.getD (l >>> 1) none = none ∨ asg.getD (l >>> 1) none = some ((l &&& 1) ^^^ 1) := by
  unfold is_watchable
  cases h : asg.getD (l >>> 1) none with
  | none => simp
  | some x => simp [beq_iff_eq]

theorem is_watchable_false_iff (asg : Assignment) (l : Nat) :
    is_watchable asg l = false ↔
      ∃ x, asg.getD (l >>> 1) none = some x ∧ x ≠ (l &&& 1) ^^^ 1 := by
  unfold is_watchable
  cases h : asg.getD (l >>> 1) none with
  | none => simp
  | some x => simp [beq_iff_eq]

/-- For a polarity bit, XOR with 1 is complement. -/
theorem xor_one_eq (b : Nat) (h : b < 2) : b ^^^ 1 = 1 - b := by
  have := add_xor_one 0 b h
  simpa using this

/-- A false literal is not watchable. -/
theorem not_watchable_of_litFalse (asg : Assignment) (l : Nat)
    (h : litFalse asg l) : is_watchable asg l = false := by
  rw [is_watchable_false_iff]
  refine ⟨l &&& 1, h, ?_⟩
  rw [xor_one_eq _ (lit_pol_lt l)]
  have := lit_pol_lt l
  omega

/-- With values in `{0,1}`, an unwatchable literal is false. -/
theorem litFalse_of_not_watchable (asg : Assignment) (l : Nat)
    (hv : asgValues asg) (h : is_watchable asg l = false) : litFalse asg l := by
  rw [is_watchable_false_iff] at h
  obtain ⟨x, hx, hne⟩ := h
  have hx2 := hv _ _ hx
  rw [xor_one_eq _ (lit_pol_lt l)] at hne
  have hb := lit_pol_lt l
  have : x = l &&& 1 := by omega
  rw [litFalse, hx, this]

/-- A watchable literal is not false. -/
theorem not_litFalse_of_watchable (asg : Assignment) (l : Nat)
    (h : is_watchable asg l = true) : ¬ litFalse asg l := by
  rw [is_watchable_iff] at h
  intro hf
  rw [litFalse] at hf
  have hb := lit_pol_lt l
  rcases h with h | h <;> rw [hf] at h
  · simp at h
  · rw [xor_one_eq _ hb] at h
    simp only [Option.some.injEq] at h
    omega

/-- With a total assignment of `{0,1}` values, a non-false literal is
true. -/
theorem litTrue_of_not_litFalse (asg : Assignment) (l : Nat) (n : Nat)
    (ht : totalAsg n asg) (hl : l >>> 1 < n) (h : ¬ litFalse asg l) :
    litTrue asg l := by
  obtain ⟨hlen, hall⟩ := ht
  obtain ⟨v, hv2, hv⟩ := hall _ hl
  rw [litFalse, hv] at h
  rw [litTrue, hv]
  have hb := lit_pol_lt l
  have hne : v ≠ l &&& 1 := fun he => h (by rw [he])
  have : v = (l &&& 1) ^^^ 1 := by rw [xor_one_eq _ hb]; omega
  rw [this]

/-- `find_alternative` returns a member of the clause that is watchable. -/
theorem find_alternative_some (asg : Assignment) (c : Clause) (alt : Nat)
    (h : find_alternative asg c = some alt) :
    alt ∈ c ∧ is_watchable asg alt = true :=
  ⟨List.mem_of_find?_eq_some h, List.find?_some h⟩

/-- When `find_alternative` fails, no literal of the clause is
watchable. -/
theorem find_alternative_none (asg : Assignment) (c : Clause)
    (h : find_alternative asg c = none) :
    ∀ l ∈ c, is_watchable asg l = false := by
  intro l hl
  have := List.find?_eq_none.mp h l hl
  simpa using this

/-! ## Clause occurrence counting over the watchlist queues -/

/-- Number of occurrences of `c` in a clause list. -/
def countL : List Clause → Clause → Nat
  | [], _ => 0
  | a :: rest, c => (if a = c then 1 else 0) + countL rest c

/-- Total number of occurrences of clause `c` over all queues. -/
def occ : Watchlist → Clause → Nat
  | [], _ => 0
  | q :: rest, c => countL q c + occ rest c

theorem countL_append (l1 l2 : List Clause) (c : Clause) :
    countL (l1 ++ l2) c = countL l1 c + countL l2 c := by
  induction l1 with
  | nil => simp [countL]
  | cons a t ih => simp [countL, ih]; omega

theorem countL_pos_iff (l : List Clause) (c : Clause) :
    0 < countL l c ↔ c ∈ l := by
  induction l with
  | nil => simp [countL]
  | cons a t ih =>
    by_cases h : a = c
    · subst h; simp [countL]
    · simp [countL, h, ih, Ne.symm h]

/-- `occ` as a sum over the queues reached through `getD`. -/
theorem occ_set (wl : Watchlist) (i : Nat) (q : List Clause) (c : Clause)
    (h : i < wl.length) :
    occ (wl.set i q) c + countL (wl.getD i []) c = occ wl c + countL q c := by
  induction wl generalizing i with
  | nil => simp at h
  | cons x xs ih =>
    cases i with
    | zero => simp [occ, List.getD]; omega
    | succ j =>
      have := ih j (by simpa using h)
      simp only [List.set, occ, List.getD_cons_succ]
      omega

theorem occ_pos_of_mem (wl : Watchlist) (i : Nat) (c : Clause)
    (h : c ∈ wl.getD i []) : 0 < occ wl c := by
  induction wl generalizing i with
  | nil => simp [List.getD] at h
  | cons x xs ih =>
    cases i with
    | zero =>
      simp only [List.getD_cons_zero] at h
      have := (countL_pos_iff x c).mpr h
      simp [occ]; omega
    | succ j =>
      have := ih j (by simpa using h)
      simp [occ]; omega

theorem mem_getD_of_occ_pos (wl : Watchlist) (c : Clause)
    (h : 0 < occ wl c) : ∃ i, c ∈ wl.getD i [] := by
  induction wl with
  | nil => simp [occ] at h
  | cons x xs ih =>
    simp only [occ] at h
    by_cases hx : 0 < countL x c
    · exact ⟨0, by simpa using (countL_pos_iff x c).mp hx⟩
    · obtain ⟨i, hi⟩ := ih (by omega)
      exact ⟨i + 1, by simpa using hi⟩

/-! ## The watchlist invariant -/

/-- The full watchlist invariant relative to an assignment: right
length, every clause of the instance in exactly one queue (counting
multiplicity), every queue's index a literal of its clauses, and no
queue's literal false under the assignment. -/
structure WLInv (clauses : List Clause) (n : Nat) (wl : Watchlist)
    (asg : Assignment) : Prop where
  len : wl.length = 2 * n
  occ_eq : ∀ c, occ wl c = countL clauses c
  watch_mem : ∀ i c, c ∈ wl.getD i [] → i ∈ c
  not_false : ∀ i c, c ∈ wl.getD i [] → ¬ litFalse asg i

/-- The watchlist invariant weakened at one literal `fl` (the literal
just falsified, whose queue is being processed). -/
structure WLInvX (clauses : List Clause) (n : Nat) (wl : Watchlist)
    (asg : Assignment) (fl : Nat) : Prop where
  len : wl.length = 2 * n
  occ_eq : ∀ c, occ wl c = countL clauses c
  watch_mem : ∀ i c, c ∈ wl.getD i [] → i ∈ c
  not_false : ∀ i c, i ≠ fl → c ∈ wl.getD i [] → ¬ litFalse asg i

theorem WLInv.toX (clauses : List Clause) (n : Nat) (wl : Watchlist)
    (asg : Assignment) (fl : Nat) (h : WLInv clauses n wl asg) :
    WLInvX clauses n wl asg fl :=
  ⟨h.len, h.occ_eq, h.watch_mem, fun i c _ hc => h.not_false i c hc⟩

/-- A clause sitting in some queue is a clause of the instance. -/
theorem mem_clauses_of_mem_queue (clauses : List Clause) (n : Nat)
    (wl : Watchlist) (asg : Assignment) (fl : Nat)
    (h : WLInvX clauses n wl asg fl) (i : Nat) (c : Clause)
    (hc : c ∈ wl.getD i []) : c ∈ clauses := by
  have h1 := occ_pos_of_mem wl i c hc
  rw [h.occ_eq] at h1
  exact (countL_pos_iff clauses c).mp h1

/-! ## Behaviour of one `update_go` run -/

/-- The effect of a single move of the front clause of `fl`'s queue. -/
theorem move_occ (wl : Watchlist) (fl alt : Nat) (clause : Clause)
    (rest : List Clause) (hq : wl.getD fl [] = clause :: rest)
    (halt : alt < wl.length) (c : Clause) :
    occ ((wl.set fl rest).set alt
      (((wl.set fl rest).getD alt []) ++ [clause])) c = occ wl c := by
  have hfl : fl < wl.length := by
    by_contra hge
    rw [getD_of_length_le wl fl [] (by omega)] at hq
    simp at hq
  have e1 := occ_set wl fl rest c hfl
  rw [hq] at e1
  have e2 := occ_set (wl.set fl rest) alt
    (((wl.set fl rest).getD alt []) ++ [clause]) c (by simpa using halt)
  rw [countL_append] at e2
  simp only [countL] at e1 e2
  omega


/-- The watchlist after one migration step: the front clause of `fl`'s
queue is removed and appended to `alt`'s queue. -/
def moveClause (wl : Watchlist) (fl alt : Nat) (clause : Clause)
    (rest : List Clause) : Watchlist :=
  (wl.set fl rest).set alt (((wl.set fl rest).getD alt []) ++ [clause])

theorem update_go_zero (asg : Assignment) (fl : Nat) (wl : Watchlist) :
    update_go asg fl 0 wl = none := rfl

theorem update_go_nil (asg : Assignment) (fl fuel : Nat) (wl : Watchlist)
    (hq : wl.getD fl [] = []) :
    update_go asg fl (fuel + 1) wl = some (true, wl) := by
  rw [update_go, hq]

theorem update_go_stuck (asg : Assignment) (fl fuel : Nat) (wl : Watchlist)
    (clause : Clause) (rest : List Clause)
    (hq : wl.getD fl [] = clause :: rest)
    (hf : find_alternative asg clause = none) :
    update_go asg fl (fuel + 1) wl = some (false, wl) := by
  rw [update_go, hq]
  simp only [hf]

theorem update_go_cons (asg : Assignment) (fl fuel : Nat) (wl : Watchlist)
    (clause : Clause) (rest : List Clause) (alt : Nat)
    (hq : wl.getD fl [] = clause :: rest)
    (hf : find_alternative asg clause = some alt) :
    update_go asg fl (fuel + 1) wl =
      update_go asg fl fuel (moveClause wl fl alt clause rest) := by
  rw [update_go, hq]
  simp only [hf]
  rfl

/-- A nonempty queue means the index is in range. -/
theorem lt_length_of_getD_ne_nil (wl : Watchlist) (i : Nat)
    (h : wl.getD i [] ≠ []) : i < wl.length := by
  by_contra hge
  rw [getD_of_length_le wl i [] (by omega)] at h
  exact h rfl

theorem moveClause_length (wl : Watchlist) (fl alt : Nat) (clause : Clause)
    (rest : List Clause) :
    (moveClause wl fl alt clause rest).length = wl.length := by
  simp [moveClause, List.length_set]

theorem moveClause_getD_fl (wl : Watchlist) (fl alt : Nat) (clause : Clause)
    (rest : List Clause) (hne : alt ≠ fl)
    (hq : wl.getD fl [] = clause :: rest) :
    (moveClause wl fl alt clause rest).getD fl [] = rest := by
  have hfl : fl < wl.length := lt_length_of_getD_ne_nil wl fl (by rw [hq]; simp)
  rw [moveClause, getD_set_ne _ _ _ _ _ hne, getD_set_self _ _ _ _ (by simpa using hfl)]

theorem moveClause_getD_alt (wl : Watchlist) (fl alt : Nat) (clause : Clause)
    (rest : List Clause) (hne : alt ≠ fl) (halt : alt < wl.length) :
    (moveClause wl fl alt clause rest).getD alt [] = wl.getD alt [] ++ [clause] := by
  rw [moveClause, getD_set_self _ _ _ _ (by simpa using halt),
    getD_set_ne _ _ _ _ _ (fun he => hne he.symm)]

theorem moveClause_getD_other (wl : Watchlist) (fl alt : Nat) (clause : Clause)
    (rest : List Clause) (j : Nat) (hj1 : j ≠ fl) (hj2 : j ≠ alt) :
    (moveClause wl fl alt clause rest).getD j [] = wl.getD j [] := by
  rw [moveClause, getD_set_ne _ _ _ _ _ (fun he => hj2 he.symm),
    getD_set_ne _ _ _ _ _ (fun he => hj1 he.symm)]

theorem moveClause_occ (wl : Watchlist) (fl alt : Nat) (clause : Clause)
    (rest : List Clause) (hq : wl.getD fl [] = clause :: rest)
    (halt : alt < wl.length) (c : Clause) :
    occ (moveClause wl fl alt clause rest) c = occ wl c :=
  move_occ wl fl alt clause rest hq halt c

/-- One migration step preserves the weakened invariant. -/
theorem moveClause_invX (clauses : List Clause) (n : Nat) (wl : Watchlist)
    (asg : Assignment) (fl : Nat) (clause : Clause) (rest : List Clause)
    (alt : Nat) (hinv : WLInvX clauses n wl asg fl)
    (hwf : WFInstance clauses n)
    (hq : wl.getD fl [] = clause :: rest)
    (hf : find_alternative asg clause = some alt)
    (hfalse : litFalse asg fl) :
    WLInvX clauses n (moveClause wl fl alt clause rest) asg fl := by
  obtain ⟨hmem, hwatch⟩ := find_alternative_some asg clause alt hf
  have hne : alt ≠ fl := by
    intro he
    rw [he, not_watchable_of_litFalse asg fl hfalse] at hwatch
    exact Bool.false_ne_true hwatch
  have hcl : clause ∈ clauses :=
    mem_clauses_of_mem_queue clauses n wl asg fl hinv fl clause
      (by rw [hq]; exact List.mem_cons_self clause rest)
  have haltb : alt < 2 * n := (hwf clause hcl).2 alt hmem
  have halt : alt < wl.length := by rw [hinv.len]; exact haltb
  refine ⟨?_, ?_, ?_, ?_⟩
  · rw [moveClause_length, hinv.len]
  · intro c
    rw [moveClause_occ wl fl alt clause rest hq halt c, hinv.occ_eq]
  · intro j c hc
    by_cases hj2 : j = alt
    · rw [hj2] at hc ⊢
      rw [moveClause_getD_alt wl fl alt clause rest hne halt] at hc
      rcases List.mem_append.mp hc with h | h
      · exact hinv.watch_mem alt c h
      · rw [List.mem_singleton.mp h]; exact hmem
    · by_cases hj1 : j = fl
      · rw [hj1] at hc ⊢
        rw [moveClause_getD_fl wl fl alt clause rest hne hq] at hc
        exact hinv.watch_mem fl c (by rw [hq]; exact List.mem_cons_of_mem clause hc)
      · rw [moveClause_getD_other wl fl alt clause rest j hj1 hj2] at hc
        exact hinv.watch_mem j c hc
  · intro j c hj hc
    by_cases hj2 : j = alt
    · rw [hj2]
      exact not_litFalse_of_watchable asg alt hwatch
    · by_cases hj1 : j = fl
      · exact absurd hj1 hj
      · rw [moveClause_getD_other wl fl alt clause rest j hj1 hj2] at hc
        exact hinv.not_false j c hj hc

theorem update_go_terminates (asg : Assignment) (fl : Nat) :
    ∀ fuel wl, litFalse asg fl → (wl.getD fl []).length < fuel →
    update_go asg fl fuel wl ≠ none := by
  intro fuel
  induction fuel with
  | zero => intro wl _ h; omega
  | succ f ih =>
    intro wl hfalse hlen
    cases hq : wl.getD fl [] with
    | nil => rw [update_go_nil asg fl f wl hq]; simp
    | cons clause rest =>
      cases hf : find_alternative asg clause with
      | none => rw [update_go_stuck asg fl f wl clause rest hq hf]; simp
      | some alt =>
        rw [update_go_cons asg fl f wl clause rest alt hq hf]
        obtain ⟨hmem, hwatch⟩ := find_alternative_some asg clause alt hf
        have hne : alt ≠ fl := by
          intro he
          rw [he, not_watchable_of_litFalse asg fl hfalse] at hwatch
          exact Bool.false_ne_true hwatch
        apply ih _ hfalse
        rw [moveClause_getD_fl wl fl alt clause rest hne hq]
        rw [hq] at hlen
        simp only [List.length_cons] at hlen
        omega

/-- A successful run empties `fl`'s queue and restores the full
invariant. -/
theorem update_go_success (clauses : List Clause) (n : Nat)
    (asg : Assignment) (fl : Nat) (hwf : WFInstance clauses n) :
    ∀ fuel wl wlOut, litFalse asg fl → WLInvX clauses n wl asg fl →
    update_go asg fl fuel wl = some (true, wlOut) →
    WLInv clauses n wlOut asg := by
  intro fuel
  induction fuel with
  | zero => intro wl wlOut _ _ h; rw [update_go_zero] at h; exact absurd h (by simp)
  | succ f ih =>
    intro wl wlOut hfalse hinv hrun
    cases hq : wl.getD fl [] with
    | nil =>
      rw [update_go_nil asg fl f wl hq] at hrun
      simp only [Option.some.injEq, Prod.mk.injEq] at hrun
      rw [← hrun.2]
      refine ⟨hinv.len, hinv.occ_eq, hinv.watch_mem, ?_⟩
      intro i c hc
      by_cases hi : i = fl
      · rw [hi] at hc; rw [hq] at hc; simp at hc
      · exact hinv.not_false i c hi hc
    | cons clause rest =>
      cases hf : find_alternative asg clause with
      | none =>
        rw [update_go_stuck asg fl f wl clause rest hq hf] at hrun
        simp at hrun
      | some alt =>
        rw [update_go_cons asg fl f wl clause rest alt hq hf] at hrun
        exact ih _ wlOut hfalse
          (moveClause_invX clauses n wl asg fl clause rest alt hinv hwf hq hf hfalse)
          hrun

/-- A failed run preserves the weakened invariant, and leaves the
contradicted clause — one whose every literal fails the alternative
test — at the front of `fl`'s queue. -/
theorem update_go_fail (clauses : List Clause) (n : Nat)
    (asg : Assignment) (fl : Nat) (hwf : WFInstance clauses n) :
    ∀ fuel wl wlOut, litFalse asg fl → WLInvX clauses n wl asg fl →
    update_go asg fl fuel wl = some (false, wlOut) →
    WLInvX clauses n wlOut asg fl ∧
      ∃ c rest2, wlOut.getD fl [] = c :: rest2 ∧
        find_alternative asg c = none := by
  intro fuel
  induction fuel with
  | zero => intro wl wlOut _ _ h; rw [update_go_zero] at h; exact absurd h (by simp)
  | succ f ih =>
    intro wl wlOut hfalse hinv hrun
    cases hq : wl.getD fl [] with
    | nil =>
      rw [update_go_nil asg fl f wl hq] at hrun
      simp at hrun
    | cons clause rest =>
      cases hf : find_alternative asg clause with
      | none =>
        rw [update_go_stuck asg fl f wl clause rest hq hf] at hrun
        simp only [Option.some.injEq, Prod.mk.injEq] at hrun
        rw [← hrun.2]
        exact ⟨hinv, clause, rest, hq, hf⟩
      | some alt =>
        rw [update_go_cons asg fl f wl clause rest alt hq hf] at hrun
        exact ih _ wlOut hfalse
          (moveClause_invX clauses n wl asg fl clause rest alt hinv hwf hq hf hfalse)
          hrun

/-- Frame property of a run: queues other than `fl`'s only receive
appended clauses that came out of `fl`'s queue, `fl`'s queue is only
consumed from the front, the clause population is preserved, and the
length is unchanged.  Requires the literals of the queued clauses to be
in range so that the `append` lands inside the list. -/
theorem update_go_frame (asg : Assignment) (fl : Nat) :
    ∀ fuel wl wlOut r, litFalse asg fl →
    (∀ i c, c ∈ wl.getD i [] → ∀ l ∈ c, l < wl.length) →
    update_go asg fl fuel wl = some (r, wlOut) →
    (∀ j, j ≠ fl → ∃ extra, wlOut.getD j [] = wl.getD j [] ++ extra ∧
        ∀ c ∈ extra, c ∈ wl.getD fl []) ∧
      (∃ removed, wl.getD fl [] = removed ++ wlOut.getD fl []) ∧
      (∀ c, occ wlOut c = occ wl c) ∧ wlOut.length = wl.length := by
  intro fuel
  induction fuel with
  | zero => intro wl wlOut r _ _ h; rw [update_go_zero] at h; exact absurd h (by simp)
  | succ f ih =>
    intro wl wlOut r hfalse hbound hrun
    cases hq : wl.getD fl [] with
    | nil =>
      rw [update_go_nil asg fl f wl hq] at hrun
      simp only [Option.some.injEq, Prod.mk.injEq] at hrun
      obtain ⟨hr1, hr2⟩ := hrun
      subst hr2
      exact ⟨fun j _ => ⟨[], (List.append_nil _).symm, by simp⟩,
        ⟨[], by rw [hq]; rfl⟩, fun c => rfl, rfl⟩
    | cons clause rest =>
      cases hf : find_alternative asg clause with
      | none =>
        rw [update_go_stuck asg fl f wl clause rest hq hf] at hrun
        simp only [Option.some.injEq, Prod.mk.injEq] at hrun
        obtain ⟨hr1, hr2⟩ := hrun
        subst hr2
        exact ⟨fun j _ => ⟨[], (List.append_nil _).symm, by simp⟩,
          ⟨[], by rw [hq]; rfl⟩, fun c => rfl, rfl⟩
      | some alt =>
        rw [update_go_cons asg fl f wl clause rest alt hq hf] at hrun
        rw [← hq]
        obtain ⟨hmem, hwatch⟩ := find_alternative_some asg clause alt hf
        have hne : alt ≠ fl := by
          intro he
          rw [he, not_watchable_of_litFalse asg fl hfalse] at hwatch
          exact Bool.false_ne_true hwatch
        have hclq : clause ∈ wl.getD fl [] := by
          rw [hq]; exact List.mem_cons_self clause rest
        have halt : alt < wl.length := hbound fl clause hclq alt hmem
        have hb2 : ∀ i c, c ∈ (moveClause wl fl alt clause rest).getD i [] →
            ∀ l ∈ c, l < (moveClause wl fl alt clause rest).length := by
          intro i c hc l hl
          rw [moveClause_length]
          by_cases hi2 : i = alt
          · rw [hi2, moveClause_getD_alt wl fl alt clause rest hne halt] at hc
            rcases List.mem_append.mp hc with h | h
            · exact hbound alt c h l hl
            · rw [List.mem_singleton.mp h] at hl
              exact hbound fl clause hclq l hl
          · by_cases hi1 : i = fl
            · rw [hi1, moveClause_getD_fl wl fl alt clause rest hne hq] at hc
              exact hbound fl c (by rw [hq]; exact List.mem_cons_of_mem clause hc) l hl
            · rw [moveClause_getD_other wl fl alt clause rest i hi1 hi2] at hc
              exact hbound i c hc l hl
        obtain ⟨hext, hsuf, hocc, hlen⟩ := ih _ wlOut r hfalse hb2 hrun
        refine ⟨?_, ?_, ?_, ?_⟩
        · intro j hj
          obtain ⟨extra, he1, he2⟩ := hext j hj
          by_cases hj2 : j = alt
          · refine ⟨[clause] ++ extra, ?_, ?_⟩
            · rw [he1, hj2, moveClause_getD_alt wl fl alt clause rest hne halt,
                List.append_assoc]
            · intro c hc
              rcases List.mem_append.mp hc with h | h
              · rw [List.mem_singleton.mp h]; exact hclq
              · have := he2 c h
                rw [moveClause_getD_fl wl fl alt clause rest hne hq] at this
                rw [hq]; exact List.mem_cons_of_mem clause this
          · refine ⟨extra, ?_, ?_⟩
            · rw [he1, moveClause_getD_other wl fl alt clause rest j hj hj2]
            · intro c hc
              have := he2 c hc
              rw [moveClause_getD_fl wl fl alt clause rest hne hq] at this
              rw [hq]; exact List.mem_cons_of_mem clause this
        · obtain ⟨removed, hr⟩ := hsuf
          rw [moveClause_getD_fl wl fl alt clause rest hne hq] at hr
          exact ⟨clause :: removed, by rw [hq, hr]; rfl⟩
        · intro c
          rw [hocc c, moveClause_occ wl fl alt clause rest hq halt c]
        · rw [hlen, moveClause_length]

/-! ## `update_watchlist` wrapper lemmas -/

/-- At call sites the false literal really is false, so the fuel
default of `update_watchlist` is never taken. -/
theorem update_watchlist_eq_go (asg : Assignment) (fl : Nat) (wl : Watchlist)
    (hfalse : litFalse asg fl) :
    some (update_watchlist asg fl wl) =
      update_go asg fl ((wl.getD fl []).length + 1) wl := by
  unfold update_watchlist
  cases hr : update_go asg fl ((wl.getD fl []).length + 1) wl with
  | none =>
    exact absurd hr (update_go_terminates asg fl _ wl hfalse (by omega))
  | some r => simp

theorem update_watchlist_success (clauses : List Clause) (n : Nat)
    (asg : Assignment) (fl : Nat) (wl wlOut : Watchlist)
    (hwf : WFInstance clauses n) (hfalse : litFalse asg fl)
    (hinv : WLInvX clauses n wl asg fl)
    (hrun : update_watchlist asg fl wl = (true, wlOut)) :
    WLInv clauses n wlOut asg := by
  apply update_go_success clauses n asg fl hwf ((wl.getD fl []).length + 1) wl wlOut
    hfalse hinv
  rw [← update_watchlist_eq_go asg fl wl hfalse, hrun]

theorem update_watchlist_fail (clauses : List Clause) (n : Nat)
    (asg : Assignment) (fl : Nat) (wl wlOut : Watchlist)
    (hwf : WFInstance clauses n) (hfalse : litFalse asg fl)
    (hinv : WLInvX clauses n wl asg fl)
    (hrun : update_watchlist asg fl wl = (false, wlOut)) :
    WLInvX clauses n wlOut asg fl ∧
      ∃ c rest2, wlOut.getD fl [] = c :: rest2 ∧
        find_alternative asg c = none := by
  apply update_go_fail clauses n asg fl hwf ((wl.getD fl []).length + 1) wl wlOut
    hfalse hinv
  rw [← update_watchlist_eq_go asg fl wl hfalse, hrun]

/-! ## `setup_watchlist` establishes the invariant -/

theorem headD_mem (c : Clause) (h : c ≠ []) : c.headD 0 ∈ c := by
  cases c with
  | nil => exact absurd rfl h
  | cons a t => exact List.mem_cons_self a t

theorem setup_aux (n : Nat) :
    ∀ (cls : List Clause) (wl0 : Watchlist), wl0.length = 2 * n →
    (∀ c ∈ cls, c ≠ [] ∧ ∀ l ∈ c, l < 2 * n) →
    (cls.foldl
        (fun wl clause =>
          wl.set (clause.headD 0) (wl.getD (clause.headD 0) [] ++ [clause]))
        wl0).length = 2 * n ∧
      (∀ c, occ (cls.foldl
        (fun wl clause =>
          wl.set (clause.headD 0) (wl.getD (clause.headD 0) [] ++ [clause]))
        wl0) c = occ wl0 c + countL cls c) ∧
      (∀ i c, c ∈ (cls.foldl
        (fun wl clause =>
          wl.set (clause.headD 0) (wl.getD (clause.headD 0) [] ++ [clause]))
        wl0).getD i [] → (c ∈ wl0.getD i [] ∨ i ∈ c)) := by
  intro cls
  induction cls with
  | nil =>
    intro wl0 hlen _
    exact ⟨hlen, fun c => by simp [countL], fun i c hc => Or.inl hc⟩
  | cons c0 t ih =>
    intro wl0 hlen hwfc
    have hc0 := hwfc c0 (List.mem_cons_self c0 t)
    have hh : c0.headD 0 ∈ c0 := headD_mem c0 hc0.1
    have hhb : c0.headD 0 < 2 * n := hc0.2 (c0.headD 0) hh
    have hhl : c0.headD 0 < wl0.length := by omega
    have hlen1 : (wl0.set (c0.headD 0) (wl0.getD (c0.headD 0) [] ++ [c0])).length
        = 2 * n := by rw [List.length_set]; exact hlen
    obtain ⟨ha, hb, hc⟩ := ih
      (wl0.set (c0.headD 0) (wl0.getD (c0.headD 0) [] ++ [c0])) hlen1
      (fun c hcm => hwfc c (List.mem_cons_of_mem c0 hcm))
    refine ⟨ha, ?_, ?_⟩
    · intro c
      have e := occ_set wl0 (c0.headD 0) (wl0.getD (c0.headD 0) [] ++ [c0]) c hhl
      rw [countL_append] at e
      have := hb c
      simp only [List.foldl_cons] at *
      simp only [countL] at *
      omega
    · intro i c hcm
      simp only [List.foldl_cons] at hcm
      rcases hc i c hcm with h | h
      · by_cases hi : i = c0.headD 0
        · rw [hi, getD_set_self _ _ _ _ (by simpa using hhl)] at h
          rcases List.mem_append.mp h with h2 | h2
          · exact Or.inl (by rw [hi]; exact h2)
          · have hcc : c = c0 := List.mem_singleton.mp h2
            right
            rw [hcc, hi]
            exact hh
        · rw [getD_set_ne _ _ _ _ _ (fun he => hi he.symm)] at h
          exact Or.inl h
      · exact Or.inr h

/-- `litFalse` never holds under the all-unassigned assignment. -/
theorem litFalse_replicate_none (n : Nat) (l : Nat) :
    ¬ litFalse (List.replicate n none) l := by
  intro h
  rw [litFalse] at h
  by_cases hl : l >>> 1 < n
  · rw [getD_eq_getElem _ _ _ (by simpa using hl)] at h
    simp at h
  · rw [getD_of_length_le _ _ _ (by simpa using Nat.le_of_not_lt hl)] at h
    simp at h

theorem setup_watchlist_length (clauses : List Clause) (n : Nat)
    (hwf : WFInstance clauses n) :
    (setup_watchlist clauses n).length = 2 * n :=
  (setup_aux n clauses (List.replicate (2 * n) []) (by simp) hwf).1

/-- `setup_watchlist` establishes the full invariant relative to the
all-unassigned assignment. -/
theorem setup_watchlist_inv (clauses : List Clause) (n : Nat)
    (hwf : WFInstance clauses n) :
    WLInv clauses n (setup_watchlist clauses n) (List.replicate n none) := by
  unfold setup_watchlist
  obtain ⟨ha, hb, hc⟩ := setup_aux n clauses (List.replicate (2 * n) []) (by simp) hwf
  refine ⟨ha, ?_, ?_, ?_⟩
  · intro c
    have := hb c
    rw [this]
    have hz : occ (List.replicate (2 * n) []) c = 0 := by
      induction (2 * n) with
      | zero => rfl
      | succ m ihm => simpa [List.replicate, occ, countL] using ihm
    omega
  · intro i c hcm
    rcases hc i c hcm with h | h
    · rw [getD_replicate_self] at h
      simp at h
    · exact h
  · intro i c _
    exact litFalse_replicate_none n i

/-! ## Assignment shapes along the search -/

/-- The shape of the assignment when the search is at depth `d`:
variables below `d` bound to `0` or `1`, variables from `d` on
unassigned. -/
def AsgShape (n d : Nat) (asg : Assignment) : Prop :=
  asg.length = n ∧ (∀ i, i < d → ∃ v, v < 2 ∧ asg.getD i none = some v) ∧
    (∀ i, d ≤ i → asg.getD i none = none)

theorem AsgShape.values (n d : Nat) (asg : Assignment)
    (h : AsgShape n d asg) : asgValues asg := by
  intro i v hv
  by_cases hi : i < d
  · obtain ⟨w, hw2, hw⟩ := h.2.1 i hi
    rw [hw] at hv
    simp only [Option.some.injEq] at hv
    omega
  · rw [h.2.2 i (by omega)] at hv
    simp at hv

theorem AsgShape.set (n d : Nat) (asg : Assignment) (a : Nat)
    (h : AsgShape n d asg) (hd : d < n) (ha : a < 2) :
    AsgShape n (d + 1) (asg.set d (some a)) := by
  refine ⟨by rw [List.length_set]; exact h.1, ?_, ?_⟩
  · intro i hi
    by_cases hid : i = d
    · refine ⟨a, ha, ?_⟩
      rw [hid, getD_set_self _ _ _ _ (by rw [h.1]; exact hd)]
    · obtain ⟨v, hv2, hv⟩ := h.2.1 i (by omega)
      exact ⟨v, hv2, by rw [getD_set_ne _ _ _ _ _ (fun he => hid he.symm), hv]⟩
  · intro i hi
    rw [getD_set_ne _ _ _ _ _ (by omega), h.2.2 i (by omega)]

/-- Binding variable `d` to `a` falsifies literal `2d + a`. -/
theorem litFalse_bind (asg : Assignment) (d a : Nat) (hd : d < asg.length)
    (ha : a < 2) : litFalse (asg.set d (some a)) (2 * d + a) := by
  rw [litFalse, lit_var d a ha, lit_pol d a ha,
    getD_set_self _ _ _ _ hd]

theorem litFalse_set_var_ne (asg : Assignment) (d : Nat) (x : Option Nat)
    (i : Nat) (h : i >>> 1 ≠ d) :
    litFalse (asg.set d x) i ↔ litFalse asg i := by
  unfold litFalse
  rw [getD_set_ne _ _ _ _ _ (fun he => h he.symm)]

/-- A false literal is not true. -/
theorem not_litTrue_of_litFalse (asg : Assignment) (l : Nat)
    (h : litFalse asg l) : ¬ litTrue asg l := by
  intro ht
  rw [litTrue] at ht
  rw [litFalse, ht] at h
  simp only [Option.some.injEq] at h
  rw [xor_one_eq _ (lit_pol_lt l)] at h
  have := lit_pol_lt l
  omega

/-! ## Invariant transfer at the solver's call sites -/

/-- Binding a fresh variable `d` to `a` can break the invariant only at
the falsified literal `2d + a`. -/
theorem invX_bind (clauses : List Clause) (n : Nat) (wl : Watchlist)
    (asg : Assignment) (d a : Nat) (hinv : WLInv clauses n wl asg)
    (ha : a < 2) :
    WLInvX clauses n wl (asg.set d (some a)) (2 * d + a) := by
  refine ⟨hinv.len, hinv.occ_eq, hinv.watch_mem, ?_⟩
  intro i c hi hc
  by_cases hv : i >>> 1 = d
  · intro hf
    rw [litFalse, hv] at hf
    have hb := lit_pol_lt i
    have hib : i = 2 * d + (i &&& 1) := by
      have hdec := lit_decomp i
      rw [hv] at hdec
      exact hdec
    have hba : i &&& 1 ≠ a := fun he => hi (by omega)
    by_cases hd : d < asg.length
    · rw [getD_set_self _ _ _ _ hd] at hf
      simp only [Option.some.injEq] at hf
      omega
    · rw [getD_of_length_le _ _ _ (by rw [List.length_set]; omega)] at hf
      simp at hf
  · rw [litFalse_set_var_ne asg d (some a) i hv]
    exact hinv.not_false i c hc

/-- Flipping variable `d` from `0` to `1` heals the queue of literal
`2d` and can break only the queue of `2d + 1`. -/
theorem invX_flip (clauses : List Clause) (n : Nat) (wl : Watchlist)
    (asg : Assignment) (d : Nat)
    (hinv : WLInvX clauses n wl asg (2 * d)) :
    WLInvX clauses n wl (asg.set d (some 1)) (2 * d + 1) := by
  refine ⟨hinv.len, hinv.occ_eq, hinv.watch_mem, ?_⟩
  intro i c hi hc
  by_cases hv : i >>> 1 = d
  · intro hf
    rw [litFalse, hv] at hf
    have hb := lit_pol_lt i
    have hib : i = 2 * d + (i &&& 1) := by
      have hdec := lit_decomp i
      rw [hv] at hdec
      exact hdec
    have hba : i &&& 1 ≠ 1 := fun he => hi (by omega)
    by_cases hd : d < asg.length
    · rw [getD_set_self _ _ _ _ hd] at hf
      simp only [Option.some.injEq] at hf
      omega
    · rw [getD_of_length_le _ _ _ (by rw [List.length_set]; omega)] at hf
      simp at hf
  · rw [litFalse_set_var_ne asg d (some 1) i hv]
    refine hinv.not_false i c ?_ hc
    intro he
    apply hv
    rw [he, Nat.shiftRight_one]
    omega

/-- Unassigning variable `d` restores the full invariant from an
invariant broken only at a literal of variable `d`. -/
theorem inv_unbind (clauses : List Clause) (n : Nat) (wl : Watchlist)
    (asg : Assignment) (d fl : Nat)
    (hinv : WLInvX clauses n wl asg fl) (hfl : fl >>> 1 = d) :
    WLInv clauses n wl (asg.set d none) := by
  refine ⟨hinv.len, hinv.occ_eq, hinv.watch_mem, ?_⟩
  intro i c hc
  by_cases hv : i >>> 1 = d
  · intro hf
    rw [litFalse, hv] at hf
    by_cases hd : d < asg.length
    · rw [getD_set_self _ _ _ _ hd] at hf
      simp at hf
    · rw [getD_of_length_le _ _ _ (by rw [List.length_set]; omega)] at hf
      simp at hf
  · rw [litFalse_set_var_ne asg d none i hv]
    refine hinv.not_false i c ?_ hc
    intro he
    rw [he, hfl] at hv
    exact hv rfl

/-! ## Characterisation of the recursive solver -/

namespace recursive_sat

theorem solveAux_stop (n : Nat) (asg : Assignment) (wl : Watchlist) (d : Nat)
    (h : n ≤ d) : solveAux n asg wl d = ([asg], wl, asg) := by
  rw [solveAux]
  rw [if_pos h]

theorem solveAux_go (n : Nat) (asg : Assignment) (wl : Watchlist) (d : Nat)
    (h : d < n) :
    solveAux n asg wl d =
      (let asg0 := asg.set d (some 0)
       let u0 := update_watchlist asg0 (d <<< 1 ||| 0) wl
       let r0 := if u0.1 then solveAux n asg0 u0.2 (d + 1) else ([], u0.2, asg0)
       let asg1 := r0.2.2.set d (some 1)
       let u1 := update_watchlist asg1 (d <<< 1 ||| 1) r0.2.1
       let r1 := if u1.1 then solveAux n asg1 u1.2 (d + 1) else ([], u1.2, asg1)
       (r0.1 ++ r1.1, r1.2.1, r1.2.2.set d none)) := by
  rw [solveAux]
  rw [if_neg (by omega : ¬ n ≤ d)]

end recursive_sat

/-- Under the invariant, a total assignment satisfies every clause:
each clause sits in some queue, the queue's literal belongs to the
clause and is not false, hence true. -/
theorem sat_of_inv_total (clauses : List Clause) (n : Nat) (wl : Watchlist)
    (asg : Assignment) (hwf : WFInstance clauses n)
    (hinv : WLInv clauses n wl asg) (ht : totalAsg n asg) :
    instSat asg clauses := by
  intro c hc
  have h1 : 0 < countL clauses c := (countL_pos_iff clauses c).mpr hc
  have h2 : 0 < occ wl c := by rw [hinv.occ_eq c]; exact h1
  obtain ⟨i, hi⟩ := mem_getD_of_occ_pos wl c h2
  have him : i ∈ c := hinv.watch_mem i c hi
  have hnf : ¬ litFalse asg i := hinv.not_false i c hi
  have hvar : i >>> 1 < n := by
    have := (hwf c hc).2 i him
    rw [Nat.shiftRight_one]
    omega
  exact ⟨i, him, litTrue_of_not_litFalse asg i n ht hvar hnf⟩

/-- A clause all of whose literals are false under a partial assignment
cannot be satisfied by any assignment agreeing with it on the bound
variables. -/
theorem no_sat_of_falsified (clauses : List Clause) (τ asg : Assignment)
    (c : Clause) (hc : c ∈ clauses)
    (hfall : ∀ l ∈ c, litFalse asg l)
    (hagree : ∀ i v, asg.getD i none = some v → τ.getD i none = some v)
    (hsat : instSat τ clauses) : False := by
  obtain ⟨l, hl, hlt⟩ := hsat c hc
  have hf : litFalse τ l := hagree _ _ (hfall l hl)
  exact not_litTrue_of_litFalse τ l hf hlt

namespace recursive_sat

/-- Characterisation of one level of `solveAux` in terms of the results
of its two update calls and two recursive calls. -/
theorem solveAux_step (n : Nat) (asg : Assignment) (wl : Watchlist) (d : Nat)
    (h : d < n) (ok0 : Bool) (wlA : Watchlist)
    (hu0 : update_watchlist (asg.set d (some 0)) (d <<< 1 ||| 0) wl = (ok0, wlA))
    (ys0 : List Assignment) (wlB : Watchlist) (asgB : Assignment)
    (hr0 : (if ok0 then solveAux n (asg.set d (some 0)) wlA (d + 1)
            else ([], wlA, asg.set d (some 0))) = (ys0, wlB, asgB))
    (ok1 : Bool) (wlC : Watchlist)
    (hu1 : update_watchlist (asgB.set d (some 1)) (d <<< 1 ||| 1) wlB = (ok1, wlC))
    (ys1 : List Assignment) (wlD : Watchlist) (asgD : Assignment)
    (hr1 : (if ok1 then solveAux n (asgB.set d (some 1)) wlC (d + 1)
            else ([], wlC, asgB.set d (some 1))) = (ys1, wlD, asgD)) :
    solveAux n asg wl d = (ys0 ++ ys1, wlD, asgD.set d none) := by
  rw [solveAux, if_neg (by omega : ¬ n ≤ d)]
  simp only [hu0, hr0, hu1, hr1]

end recursive_sat

namespace recursive_sat

/-- The statement proved about `solveAux` at every depth, used as the
induction hypothesis. -/
def SpecAt (clauses : List Clause) (n k : Nat) : Prop :=
  ∀ d asg wl ys wlOut asgOut, n - d = k → d ≤ n →
    AsgShape n d asg → WLInv clauses n wl asg →
    solveAux n asg wl d = (ys, wlOut, asgOut) →
    asgOut = asg ∧ WLInv clauses n wlOut asg ∧
      (∀ τ, τ ∈ ys ↔ (totalAsg n τ ∧
        (∀ i, i < d → τ.getD i none = asg.getD i none) ∧ instSat τ clauses)) ∧
      ys.Nodup

/-- One value-branch of `solveAux`: trying `assignment[d] = a`.  The
yields are exactly the satisfying total assignments extending the
current one with `d ↦ a`. -/
theorem branch_spec (clauses : List Clause) (n : Nat)
    (hwf : WFInstance clauses n) (k d : Nat) (hd : d < n)
    (hk : n - d = k + 1) (IH : SpecAt clauses n k)
    (asg : Assignment) (wl : Watchlist) (a : Nat) (ha : a < 2)
    (hshape : AsgShape n d asg)
    (hinvX : WLInvX clauses n wl (asg.set d (some a)) (2 * d + a))
    (ok : Bool) (wlA : Watchlist)
    (hu : update_watchlist (asg.set d (some a)) (d <<< 1 ||| a) wl = (ok, wlA))
    (ys : List Assignment) (wlB : Watchlist) (asgB : Assignment)
    (hr : (if ok then solveAux n (asg.set d (some a)) wlA (d + 1)
           else ([], wlA, asg.set d (some a))) = (ys, wlB, asgB)) :
    asgB = asg.set d (some a) ∧
      WLInvX clauses n wlB (asg.set d (some a)) (2 * d + a) ∧
      (∀ τ, τ ∈ ys ↔ (totalAsg n τ ∧
        (∀ i, i < d → τ.getD i none = asg.getD i none) ∧
        τ.getD d none = some a ∧ instSat τ clauses)) ∧
      ys.Nodup := by
  rw [shiftLeft_lor_eq d a ha] at hu
  have hdl : d < asg.length := by rw [hshape.1]; exact hd
  have hfalse : litFalse (asg.set d (some a)) (2 * d + a) :=
    litFalse_bind asg d a hdl ha
  have hshape1 : AsgShape n (d + 1) (asg.set d (some a)) :=
    AsgShape.set n d asg a hshape hd ha
  cases ok with
  | true =>
    rw [if_pos rfl] at hr
    have hinvA : WLInv clauses n wlA (asg.set d (some a)) :=
      update_watchlist_success clauses n (asg.set d (some a)) (2 * d + a)
        wl wlA hwf hfalse hinvX hu
    obtain ⟨hB1, hB2, hB3, hB4⟩ := IH (d + 1) (asg.set d (some a)) wlA ys wlB asgB
      (by omega) (by omega) hshape1 hinvA hr
    refine ⟨hB1, WLInv.toX clauses n wlB (asg.set d (some a)) (2 * d + a) hB2,
      ?_, hB4⟩
    intro τ
    rw [hB3 τ]
    constructor
    · rintro ⟨ht, hag, hsat⟩
      refine ⟨ht, ?_, ?_, hsat⟩
      · intro i hi
        rw [hag i (by omega), getD_set_ne _ _ _ _ _ (by omega)]
      · rw [hag d (by omega), getD_set_self _ _ _ _ hdl]
    · rintro ⟨ht, hag, hda, hsat⟩
      refine ⟨ht, ?_, hsat⟩
      intro i hi
      by_cases hid : i = d
      · rw [hid, getD_set_self _ _ _ _ hdl]
        exact hda
      · rw [getD_set_ne _ _ _ _ _ (fun he => hid he.symm)]
        exact hag i (by omega)
  | false =>
    rw [if_neg (by simp)] at hr
    rw [Prod.mk.injEq, Prod.mk.injEq] at hr
    obtain ⟨hys, hwlB, hasgB⟩ := hr
    obtain ⟨hX, c, rest2, hcq, hcf⟩ :=
      update_watchlist_fail clauses n (asg.set d (some a)) (2 * d + a)
        wl wlA hwf hfalse hinvX hu
    have hXB : WLInvX clauses n wlB (asg.set d (some a)) (2 * d + a) := by
      rw [← hwlB]; exact hX
    refine ⟨hasgB.symm, hXB, ?_, by rw [← hys]; exact List.nodup_nil⟩
    intro τ
    rw [← hys]
    constructor
    · intro h
      exact absurd h (List.not_mem_nil τ)
    · rintro ⟨ht, hag, hda, hsat⟩
      exfalso
      have hcin : c ∈ clauses :=
        mem_clauses_of_mem_queue clauses n wlA (asg.set d (some a))
          (2 * d + a) hX (2 * d + a) c
          (by rw [hcq]; exact List.mem_cons_self c rest2)
      apply no_sat_of_falsified clauses τ (asg.set d (some a)) c hcin ?_ ?_ hsat
      · intro l hl
        exact litFalse_of_not_watchable (asg.set d (some a)) l
          (AsgShape.values n (d + 1) (asg.set d (some a)) hshape1)
          (find_alternative_none (asg.set d (some a)) c hcf l hl)
      · intro i v hv
        by_cases hid : i = d
        · rw [hid] at hv ⊢
          rw [getD_set_self _ _ _ _ hdl] at hv
          rw [hda]
          exact hv.symm ▸ rfl
        · rw [getD_set_ne _ _ _ _ _ (fun he => hid he.symm)] at hv
          have hilt : i < d := by
            by_contra hge
            rw [hshape.2.2 i (by omega)] at hv
            exact Option.noConfusion hv
          rw [hag i hilt]
          exact hv

end recursive_sat

namespace recursive_sat

/-- The main induction: at every depth `d`, with the invariant in force,
`solveAux` returns the original assignment and watch invariant, yields
exactly the satisfying total extensions of the current partial
assignment, and yields no duplicates. -/
theorem solveAux_spec (clauses : List Clause) (n : Nat)
    (hwf : WFInstance clauses n) : ∀ k, SpecAt clauses n k := by
  intro k
  induction k with
  | zero =>
    intro d asg wl ys wlOut asgOut hk hdn hshape hinv heq
    have hdn2 : n ≤ d := by omega
    rw [solveAux_stop n asg wl d hdn2, Prod.mk.injEq, Prod.mk.injEq] at heq
    obtain ⟨h1, h2, h3⟩ := heq
    have htot : totalAsg n asg := ⟨hshape.1, fun i hi => hshape.2.1 i (by omega)⟩
    refine ⟨h3.symm, by rw [← h2]; exact hinv, ?_, by rw [← h1]; simp⟩
    intro τ
    rw [← h1]
    constructor
    · intro hτ
      rw [List.mem_singleton] at hτ
      subst hτ
      exact ⟨htot, fun i _ => rfl, sat_of_inv_total clauses n wl τ hwf hinv htot⟩
    · rintro ⟨ht, hag, hsat⟩
      rw [List.mem_singleton]
      apply eq_of_getD_eq τ asg none (by rw [ht.1, hshape.1])
      intro i
      by_cases hi : i < n
      · exact hag i (by omega)
      · rw [getD_of_length_le τ i none (by rw [ht.1]; omega),
          getD_of_length_le asg i none (by rw [hshape.1]; omega)]
  | succ k ih =>
    intro d asg wl ys wlOut asgOut hk hdn hshape hinv heq
    have hd : d < n := by omega
    have hdl : d < asg.length := by rw [hshape.1]; exact hd
    rcases hu0 : update_watchlist (asg.set d (some 0)) (d <<< 1 ||| 0) wl
      with ⟨ok0, wlA⟩
    rcases hr0 : (if ok0 then solveAux n (asg.set d (some 0)) wlA (d + 1)
        else ([], wlA, asg.set d (some 0))) with ⟨ys0, wlB, asgB⟩
    rcases hu1 : update_watchlist (asgB.set d (some 1)) (d <<< 1 ||| 1) wlB
      with ⟨ok1, wlC⟩
    rcases hr1 : (if ok1 then solveAux n (asgB.set d (some 1)) wlC (d + 1)
        else ([], wlC, asgB.set d (some 1))) with ⟨ys1, wlD, asgD⟩
    have hkey := solveAux_step n asg wl d hd ok0 wlA hu0 ys0 wlB asgB hr0
      ok1 wlC hu1 ys1 wlD asgD hr1
    rw [heq, Prod.mk.injEq, Prod.mk.injEq] at hkey
    obtain ⟨hys, hwlOut, hasgOut⟩ := hkey
    have hX0 : WLInvX clauses n wl (asg.set d (some 0)) (2 * d + 0) :=
      invX_bind clauses n wl asg d 0 hinv (by omega)
    obtain ⟨hB1, hB2, hB3, hB4⟩ := branch_spec clauses n hwf k d hd (by omega)
      ih asg wl 0 (by omega) hshape hX0 ok0 wlA hu0 ys0 wlB asgB hr0
    have hset01 : (asg.set d (some 0)).set d (some 1) = asg.set d (some 1) :=
      List.set_set _ _ _ _
    rw [hB1, hset01] at hu1 hr1
    have hX1 : WLInvX clauses n wlB (asg.set d (some 1)) (2 * d + 1) := by
      have h2d : WLInvX clauses n wlB (asg.set d (some 0)) (2 * d) := by
        have h := hB2
        rw [Nat.add_zero] at h
        exact h
      have h := invX_flip clauses n wlB (asg.set d (some 0)) d h2d
      rw [hset01] at h
      exact h
    obtain ⟨hC1, hC2, hC3, hC4⟩ := branch_spec clauses n hwf k d hd (by omega)
      ih asg wlB 1 (by omega) hshape hX1 ok1 wlC hu1 ys1 wlD asgD hr1
    have hasg_final : asgD.set d none = asg := by
      rw [hC1, List.set_set]
      exact set_getD_default asg d none (hshape.2.2 d (by omega))
    refine ⟨?_, ?_, ?_, ?_⟩
    · rw [hasgOut, hasg_final]
    · rw [hwlOut]
      have h := inv_unbind clauses n wlD (asg.set d (some 1)) d (2 * d + 1) hC2
        (lit_var d 1 (by omega))
      rw [List.set_set] at h
      rw [set_getD_default asg d none (hshape.2.2 d (by omega))] at h
      exact h
    · intro τ
      rw [hys, List.mem_append, hB3 τ, hC3 τ]
      constructor
      · rintro (⟨ht, hag, _, hsat⟩ | ⟨ht, hag, _, hsat⟩) <;> exact ⟨ht, hag, hsat⟩
      · rintro ⟨ht, hag, hsat⟩
        obtain ⟨v, hv2, hv⟩ := ht.2 d hd
        rcases (by omega : v = 0 ∨ v = 1) with rfl | rfl
        · exact Or.inl ⟨ht, hag, hv, hsat⟩
        · exact Or.inr ⟨ht, hag, hv, hsat⟩
    · rw [hys]
      apply List.Nodup.append hB4 hC4
      intro τ hτ0 hτ1
      have h0 := ((hB3 τ).mp hτ0).2.2.1
      have h1 := ((hC3 τ).mp hτ1).2.2.1
      rw [h0] at h1
      simp at h1

end recursive_sat

/-- `List.set` never changes the length, so the watchlist always has
`2n` queues. -/
theorem setup_watchlist_len (clauses : List Clause) (n : Nat) :
    (setup_watchlist clauses n).length = 2 * n := by
  unfold setup_watchlist
  suffices h : ∀ (cls : List Clause) (wl : Watchlist),
      (cls.foldl
        (fun wl clause =>
          wl.set (clause.headD 0) (wl.getD (clause.headD 0) [] ++ [clause]))
        wl).length = wl.length by
    rw [h clauses (List.replicate (2 * n) [])]
    simp
  intro cls
  induction cls with
  | nil => intro wl; rfl
  | cons c0 t iht =>
    intro wl
    simp only [List.foldl_cons]
    rw [iht]
    exact List.length_set wl _ _

theorem isEmpty_false_of_length_pos {α : Type} (l : List α)
    (h : 0 < l.length) : l.isEmpty = false := by
  cases l with
  | nil => simp at h
  | cons a t => rfl

namespace recursive_sat

/-- Full characterisation of `recursive_sat.solve` for an instance with
at least one variable: it yields exactly the satisfying total
assignments, without duplicates. -/
theorem solve_spec (clauses : List Clause) (n : Nat)
    (hwf : WFInstance clauses n) (hn : 1 ≤ n) :
    (∀ τ, τ ∈ solve clauses n ↔ (totalAsg n τ ∧ instSat τ clauses)) ∧
      (solve clauses n).Nodup := by
  unfold solve
  have hne : (setup_watchlist clauses n).isEmpty = false :=
    isEmpty_false_of_length_pos _ (by rw [setup_watchlist_len]; omega)
  simp only [hne, Bool.false_eq_true, if_false]
  rcases hq : solveAux n (List.replicate n none) (setup_watchlist clauses n) 0
    with ⟨ys, wlOut, asgOut⟩
  have hshape0 : AsgShape n 0 (List.replicate n none) :=
    ⟨by simp, fun i hi => absurd hi (by omega), fun i _ => getD_replicate_self n i none⟩
  obtain ⟨h1, h2, h3, h4⟩ := solveAux_spec clauses n hwf n 0
    (List.replicate n none) (setup_watchlist clauses n) ys wlOut asgOut
    (by omega) (by omega) hshape0 (setup_watchlist_inv clauses n hwf) hq
  constructor
  · intro τ
    rw [h3 τ]
    constructor
    · rintro ⟨ht, _, hsat⟩
      exact ⟨ht, hsat⟩
    · rintro ⟨ht, hsat⟩
      exact ⟨ht, fun i hi => absurd hi (by omega), hsat⟩
  · exact h4

/-- The number of yields of `solveAux` at depth `d` is at most
`2 ^ (n - d)`. -/
theorem solveAux_len (n : Nat) :
    ∀ k d asg wl, n - d = k → (solveAux n asg wl d).1.length ≤ 2 ^ k := by
  intro k
  induction k with
  | zero =>
    intro d asg wl hk
    rw [solveAux_stop n asg wl d (by omega)]
    simp
  | succ k ih =>
    intro d asg wl hk
    have hd : d < n := by omega
    rcases hu0 : update_watchlist (asg.set d (some 0)) (d <<< 1 ||| 0) wl
      with ⟨ok0, wlA⟩
    rcases hr0 : (if ok0 then solveAux n (asg.set d (some 0)) wlA (d + 1)
        else ([], wlA, asg.set d (some 0))) with ⟨ys0, wlB, asgB⟩
    rcases hu1 : update_watchlist (asgB.set d (some 1)) (d <<< 1 ||| 1) wlB
      with ⟨ok1, wlC⟩
    rcases hr1 : (if ok1 then solveAux n (asgB.set d (some 1)) wlC (d + 1)
        else ([], wlC, asgB.set d (some 1))) with ⟨ys1, wlD, asgD⟩
    rw [solveAux_step n asg wl d hd ok0 wlA hu0 ys0 wlB asgB hr0
      ok1 wlC hu1 ys1 wlD asgD hr1]
    have hy0 : ys0.length ≤ 2 ^ k := by
      cases ok0 with
      | true =>
        rw [if_pos rfl] at hr0
        have := ih (d + 1) (asg.set d (some 0)) wlA (by omega)
        rw [hr0] at this
        exact this
      | false =>
        rw [if_neg (by simp)] at hr0
        rw [Prod.mk.injEq, Prod.mk.injEq] at hr0
        rw [← hr0.1]
        simp
    have hy1 : ys1.length ≤ 2 ^ k := by
      cases ok1 with
      | true =>
        rw [if_pos rfl] at hr1
        have := ih (d + 1) (asgB.set d (some 1)) wlC (by omega)
        rw [hr1] at this
        exact this
      | false =>
        rw [if_neg (by simp)] at hr1
        rw [Prod.mk.injEq, Prod.mk.injEq] at hr1
        rw [← hr1.1]
        simp
    simp only [List.length_append]
    have : 2 ^ (k + 1) = 2 ^ k + 2 ^ k := by ring
    omega

/-- The recursive solver yields at most `2 ^ n` assignments. -/
theorem solve_len (clauses : List Clause) (n : Nat) :
    (solve clauses n).length ≤ 2 ^ n := by
  unfold solve
  by_cases h : (setup_watchlist clauses n).isEmpty = true
  · simp only [h, if_true]
    simp
  · simp only [h, if_false]
    have := solveAux_len n n 0 (List.replicate n none)
      (setup_watchlist clauses n) (by omega)
    exact this

end recursive_sat

/-! ## The iterative solver: run equations and segment composition -/

namespace iterative_sat

theorem run_zero (n : Nat) (σ : IterState) : run n 0 σ = none := rfl

theorem run_done (n : Nat) (fuel : Nat) (σ : IterState)
    (hs : step n σ = StepRes.done) : run n (fuel + 1) σ = some [] := by
  rw [run]
  simp only [hs]

theorem run_cont (n : Nat) (fuel : Nat) (σ σ1 : IterState)
    (hs : step n σ = StepRes.cont σ1) : run n (fuel + 1) σ = run n fuel σ1 := by
  rw [run]
  simp only [hs]

theorem run_emit (n : Nat) (fuel : Nat) (σ σ1 : IterState) (out : Assignment)
    (hs : step n σ = StepRes.emit out σ1) :
    run n (fuel + 1) σ = (run n fuel σ1).map (fun ys => out :: ys) := by
  rw [run]
  simp only [hs]

theorem run_mono (n : Nat) :
    ∀ f1 f2 σ r, f1 ≤ f2 → run n f1 σ = some r → run n f2 σ = some r := by
  intro f1
  induction f1 with
  | zero =>
    intro f2 σ r _ h
    rw [run_zero] at h
    exact absurd h (by simp)
  | succ f ih =>
    intro f2 σ r hle h
    cases f2 with
    | zero => omega
    | succ f2p =>
      cases hs : step n σ with
      | done =>
        rw [run_done n f σ hs] at h
        rw [run_done n f2p σ hs]
        exact h
      | cont σ1 =>
        rw [run_cont n f σ σ1 hs] at h
        rw [run_cont n f2p σ σ1 hs]
        exact ih f2p σ1 r (by omega) h
      | emit out σ1 =>
        rw [run_emit n f σ σ1 out hs] at h
        rw [run_emit n f2p σ σ1 out hs]
        cases hr : run n f σ1 with
        | none => rw [hr] at h; exact absurd h (by simp)
        | some ys =>
          rw [hr] at h
          rw [ih f2p σ1 ys (by omega) hr]
          exact h

/-- `SegRuns n σ ys σ2 c`: from state `σ` the loop reaches state `σ2`
within `c` iterations, emitting exactly `ys` on the way. -/
def SegRuns (n : Nat) (σ : IterState) (ys : List Assignment)
    (σ2 : IterState) (cost : Nat) : Prop :=
  ∀ fuel r, run n fuel σ2 = some r → run n (fuel + cost) σ = some (ys ++ r)

theorem segStep (n : Nat) (σ σ1 : IterState)
    (hs : step n σ = StepRes.cont σ1) : SegRuns n σ [] σ1 1 := by
  intro fuel r h
  rw [run_cont n fuel σ σ1 hs]
  simpa using h

theorem segEmit (n : Nat) (σ σ1 : IterState) (out : Assignment)
    (hs : step n σ = StepRes.emit out σ1) : SegRuns n σ [out] σ1 1 := by
  intro fuel r h
  rw [run_emit n fuel σ σ1 out hs, h]
  rfl

theorem segComp (n : Nat) (σ σ2 σ3 : IterState) (ys zs : List Assignment)
    (c1 c2 : Nat) (h1 : SegRuns n σ ys σ2 c1) (h2 : SegRuns n σ2 zs σ3 c2) :
    SegRuns n σ (ys ++ zs) σ3 (c1 + c2) := by
  intro fuel r h3
  have h4 := h2 fuel r h3
  have h5 := h1 (fuel + c2) (zs ++ r) h4
  have he : fuel + c2 + c1 = fuel + (c1 + c2) := by omega
  rw [he] at h5
  rw [h5, List.append_assoc]

theorem segWeaken (n : Nat) (σ σ2 : IterState) (ys : List Assignment)
    (c c2 : Nat) (h : SegRuns n σ ys σ2 c) (hle : c ≤ c2) :
    SegRuns n σ ys σ2 c2 := by
  intro fuel r h3
  have h4 := run_mono n fuel (fuel + (c2 - c)) σ2 r (by omega) h3
  have h5 := h (fuel + (c2 - c)) r h4
  have he : fuel + (c2 - c) + c = fuel + c2 := by omega
  rw [he] at h5
  exact h5

end iterative_sat

namespace iterative_sat

/-! ### Characterisation of one loop iteration in each machine state -/

/-- At `d = n` the body yields the assignment and retreats. -/
theorem step_yield (n : Nat) (st : List Nat) (asg : Assignment)
    (wl : Watchlist) :
    step n ⟨st, asg, n, wl⟩ = StepRes.emit asg ⟨st, asg, n - 1, wl⟩ := by
  rw [step, if_pos rfl]

/-- Fresh depth, value `0` tried and accepted. -/
theorem step_try0_ok (n : Nat) (st : List Nat) (asg : Assignment) (d : Nat)
    (wl wlA : Watchlist) (hdn : d ≠ n) (hs : st.getD d 0 = 0)
    (hu : update_watchlist (asg.set d (some 0)) (d <<< 1 ||| 0) wl = (true, wlA)) :
    step n ⟨st, asg, d, wl⟩ =
      StepRes.cont ⟨st.set d 1, asg.set d (some 0), d + 1, wlA⟩ := by
  rw [step, if_neg hdn]
  simp only [hs, hu]
  rfl

/-- Fresh depth, value `0` tried and refused: the body falls through to
the `a = 1` part of the trial loop within the same iteration. -/
theorem step_try0_fail (n : Nat) (st : List Nat) (asg : Assignment) (d : Nat)
    (wl wlA : Watchlist) (hdn : d ≠ n) (hs : st.getD d 0 = 0)
    (hu : update_watchlist (asg.set d (some 0)) (d <<< 1 ||| 0) wl = (false, wlA)) :
    step n ⟨st, asg, d, wl⟩ =
      stepTrue ⟨st.set d 1, (asg.set d (some 0)).set d none, d, wlA⟩ true := by
  rw [step, if_neg hdn]
  simp only [hs, hu]
  rfl

/-- Depth with only `0` tried: the body goes straight to the `a = 1`
part. -/
theorem step_next (n : Nat) (st : List Nat) (asg : Assignment) (d : Nat)
    (wl : Watchlist) (hdn : d ≠ n) (hs : st.getD d 0 = 1) :
    step n ⟨st, asg, d, wl⟩ = stepTrue ⟨st, asg, d, wl⟩ false := by
  rw [step, if_neg hdn]
  simp only [hs]
  rfl

/-- Depth with both values tried: the body goes to the backtrack check. -/
theorem step_exhausted (n : Nat) (st : List Nat) (asg : Assignment) (d : Nat)
    (wl : Watchlist) (hdn : d ≠ n) (hs : st.getD d 0 = 3) :
    step n ⟨st, asg, d, wl⟩ = stepTrue ⟨st, asg, d, wl⟩ false := by
  rw [step, if_neg hdn]
  simp only [hs]
  rfl

/-- Value `1` tried and accepted. -/
theorem stepTrue_ok (st : List Nat) (asg : Assignment) (d : Nat)
    (wl wlC : Watchlist) (t : Bool) (hs : st.getD d 0 = 1)
    (hu : update_watchlist (asg.set d (some 1)) (d <<< 1 ||| 1) wl = (true, wlC)) :
    stepTrue ⟨st, asg, d, wl⟩ t =
      StepRes.cont ⟨st.set d 3, asg.set d (some 1), d + 1, wlC⟩ := by
  rw [stepTrue]
  simp only [hs, hu]
  rfl

/-- Value `1` tried and refused. -/
theorem stepTrue_fail (st : List Nat) (asg : Assignment) (d : Nat)
    (wl wlC : Watchlist) (t : Bool) (hs : st.getD d 0 = 1)
    (hu : update_watchlist (asg.set d (some 1)) (d <<< 1 ||| 1) wl = (false, wlC)) :
    stepTrue ⟨st, asg, d, wl⟩ t =
      StepRes.cont ⟨st.set d 3, (asg.set d (some 1)).set d none, d, wlC⟩ := by
  rw [stepTrue]
  simp only [hs, hu]
  rfl

/-- Both values tried, `d ≥ 1`: backtrack. -/
theorem stepTrue_backtrack (st : List Nat) (asg : Assignment) (d : Nat)
    (wl : Watchlist) (hs : st.getD d 0 = 3) (hd : d ≠ 0) :
    stepTrue ⟨st, asg, d, wl⟩ false =
      StepRes.cont ⟨st.set d 0, asg.set d none, d - 1, wl⟩ := by
  rw [stepTrue]
  simp only [hs, hd]
  rfl

/-- Both values tried at depth `0`: the search is over. -/
theorem stepTrue_finish (st : List Nat) (asg : Assignment)
    (wl : Watchlist) (hs : st.getD 0 0 = 3) :
    stepTrue ⟨st, asg, 0, wl⟩ false = StepRes.done := by
  rw [stepTrue]
  simp only [hs]
  rfl

end iterative_sat

/-- `List.set` past the end of the list is the identity. -/
theorem set_of_length_le {α : Type} (l : List α) (i : Nat) (v : α)
    (h : l.length ≤ i) : l.set i v = l := by
  induction l generalizing i with
  | nil => rfl
  | cons x xs ih =>
    cases i with
    | zero => simp at h
    | succ j =>
      simp only [List.set]
      rw [ih j (by simpa using h)]

namespace iterative_sat

/-- Iteration budget for the loop segment exploring a subtree of
height `k`. -/
def segCost (k : Nat) : Nat := 2 ^ (k + 2) - 3

theorem segCost_zero : segCost 0 = 1 := rfl

theorem segCost_succ (k : Nat) : segCost (k + 1) = 2 * segCost k + 3 := by
  unfold segCost
  have h1 : (2 : Nat) ^ (k + 1 + 2) = 2 * 2 ^ (k + 2) := by ring
  have h2 : (4 : Nat) ≤ 2 ^ (k + 2) := by
    calc (4 : Nat) = 2 ^ 2 := by norm_num
    _ ≤ 2 ^ (k + 2) := Nat.pow_le_pow_right (by omega) (by omega)
  omega

theorem segCost_pos (k : Nat) : 1 ≤ segCost k := by
  unfold segCost
  have h2 : (4 : Nat) ≤ 2 ^ (k + 2) := by
    calc (4 : Nat) = 2 ^ 2 := by norm_num
    _ ≤ 2 ^ (k + 2) := Nat.pow_le_pow_right (by omega) (by omega)
  omega

theorem segCongr (n : Nat) (σ σ2 : IterState) (ys zs : List Assignment)
    (c : Nat) (h : SegRuns n σ ys σ2 c) (hy : ys = zs) :
    SegRuns n σ zs σ2 c := hy ▸ h

end iterative_sat

namespace iterative_sat

/-- Simulation: from a fresh entry at depth `d`, the iterative loop
performs exactly the depth-`d` subtree exploration of the recursive
solver — same yields in the same order, same watchlist evolution — and
then backtracks to `d - 1` (or, at `d = 0`, stops). -/
theorem sim (n : Nat) (hn : 1 ≤ n) :
    ∀ k d st asg wl ys wlOut asgOut, n - d = k → d ≤ n →
    st.length = n → (∀ i, d ≤ i → st.getD i 0 = 0) →
    recursive_sat.solveAux n asg wl d = (ys, wlOut, asgOut) →
    (1 ≤ d →
      SegRuns n ⟨st, asg, d, wl⟩ ys ⟨st.set d 0, asgOut, d - 1, wlOut⟩ (segCost k)) ∧
    (d = 0 → ∀ fuel, run n (fuel + segCost k) ⟨st, asg, 0, wl⟩ = some ys) := by
  intro k
  induction k with
  | zero =>
    intro d st asg wl ys wlOut asgOut hk hdn hstlen hzero heq
    have hdeq : d = n := by omega
    rw [recursive_sat.solveAux_stop n asg wl d (by omega),
      Prod.mk.injEq, Prod.mk.injEq] at heq
    obtain ⟨h1, h2, h3⟩ := heq
    constructor
    · intro _
      have hstep : step n ⟨st, asg, d, wl⟩ = StepRes.emit asg ⟨st, asg, d - 1, wl⟩ := by
        rw [hdeq]
        exact step_yield n st asg wl
      have hset : st.set d 0 = st := set_of_length_le st d 0 (by omega)
      have hseg := segEmit n ⟨st, asg, d, wl⟩ ⟨st, asg, d - 1, wl⟩ asg hstep
      rw [segCost_zero, ← h1, ← h2, ← h3, hset]
      exact hseg
    · intro h0
      omega
  | succ k ih =>
    intro d st asg wl ys wlOut asgOut hk hdn hstlen hzero heq
    have hd : d < n := by omega
    have hdl : d < st.length := by rw [hstlen]; exact hd
    have hs0 : st.getD d 0 = 0 := hzero d (le_refl d)
    rcases hu0 : update_watchlist (asg.set d (some 0)) (d <<< 1 ||| 0) wl
      with ⟨ok0, wlA⟩
    rcases hr0 : (if ok0 then recursive_sat.solveAux n (asg.set d (some 0)) wlA (d + 1)
        else ([], wlA, asg.set d (some 0))) with ⟨ys0, wlB, asgB⟩
    rcases hu1 : update_watchlist (asgB.set d (some 1)) (d <<< 1 ||| 1) wlB
      with ⟨ok1, wlC⟩
    rcases hr1 : (if ok1 then recursive_sat.solveAux n (asgB.set d (some 1)) wlC (d + 1)
        else ([], wlC, asgB.set d (some 1))) with ⟨ys1, wlD, asgD⟩
    have hkey := recursive_sat.solveAux_step n asg wl d hd ok0 wlA hu0 ys0 wlB asgB
      hr0 ok1 wlC hu1 ys1 wlD asgD hr1
    rw [heq, Prod.mk.injEq, Prod.mk.injEq] at hkey
    obtain ⟨hys, hwlOut, hasgOut⟩ := hkey
    have hs1 : (st.set d 1).getD d 0 = 1 := getD_set_self st d 1 0 hdl
    have hst13 : (st.set d 1).set d 3 = st.set d 3 := List.set_set 1 3 st d
    have hs3 : (st.set d 3).getD d 0 = 3 := getD_set_self st d 3 0 hdl
    have hst30 : (st.set d 3).set d 0 = st.set d 0 := List.set_set 3 0 st d
    have hlen1 : (st.set d 1).length = n := by rw [List.length_set]; exact hstlen
    have hlen3 : (st.set d 3).length = n := by rw [List.length_set]; exact hstlen
    have hzero1 : ∀ i, d + 1 ≤ i → (st.set d 1).getD i 0 = 0 := by
      intro i hi
      rw [getD_set_ne st d i 1 0 (by omega)]
      exact hzero i (by omega)
    have hzero3 : ∀ i, d + 1 ≤ i → (st.set d 3).getD i 0 = 0 := by
      intro i hi
      rw [getD_set_ne st d i 3 0 (by omega)]
      exact hzero i (by omega)
    have hself1 : (st.set d 1).set (d + 1) 0 = st.set d 1 :=
      set_getD_default _ _ _ (hzero1 (d + 1) (le_refl _))
    have hself3 : (st.set d 3).set (d + 1) 0 = st.set d 3 :=
      set_getD_default _ _ _ (hzero3 (d + 1) (le_refl _))
    -- Shared ending: from the both-tried state, backtrack or stop.
    have hfinish : ∀ (asgF : Assignment) (wlF : Watchlist) (cpre : Nat),
        SegRuns n ⟨st, asg, d, wl⟩ (ys0 ++ ys1) ⟨st.set d 3, asgF, d, wlF⟩ cpre →
        cpre + 1 ≤ segCost (k + 1) →
        (1 ≤ d → SegRuns n ⟨st, asg, d, wl⟩ (ys0 ++ ys1)
          ⟨st.set d 0, asgF.set d none, d - 1, wlF⟩ (segCost (k + 1))) ∧
        (d = 0 → ∀ fuel, run n (fuel + segCost (k + 1)) ⟨st, asg, 0, wl⟩ =
          some (ys0 ++ ys1)) := by
      intro asgF wlF cpre hseg hc
      constructor
      · intro hd1
        have hstep : step n ⟨st.set d 3, asgF, d, wlF⟩ =
            StepRes.cont ⟨(st.set d 3).set d 0, asgF.set d none, d - 1, wlF⟩ := by
          rw [step_exhausted n (st.set d 3) asgF d wlF (by omega) hs3]
          exact stepTrue_backtrack (st.set d 3) asgF d wlF hs3 (by omega)
        rw [hst30] at hstep
        have hlast := segStep n ⟨st.set d 3, asgF, d, wlF⟩
          ⟨st.set d 0, asgF.set d none, d - 1, wlF⟩ hstep
        have hcomp := segComp n ⟨st, asg, d, wl⟩ ⟨st.set d 3, asgF, d, wlF⟩
          ⟨st.set d 0, asgF.set d none, d - 1, wlF⟩ (ys0 ++ ys1) [] cpre 1
          hseg hlast
        rw [List.append_nil] at hcomp
        exact segWeaken n _ _ _ _ _ hcomp (by omega)
      · intro hd0
        subst hd0
        have hstep : step n ⟨st.set 0 3, asgF, 0, wlF⟩ = StepRes.done := by
          rw [step_exhausted n (st.set 0 3) asgF 0 wlF (by omega) hs3]
          exact stepTrue_finish (st.set 0 3) asgF wlF hs3
        intro fuel
        have hdone : run n (0 + 1) ⟨st.set 0 3, asgF, 0, wlF⟩ = some [] :=
          run_done n 0 _ hstep
        have h5 := hseg (0 + 1) [] hdone
        rw [List.append_nil] at h5
        exact run_mono n (0 + 1 + cpre) (fuel + segCost (k + 1))
          ⟨st, asg, 0, wl⟩ (ys0 ++ ys1) (by omega) h5
    rw [hys, hwlOut, hasgOut]
    cases ok0 with
    | true =>
      rw [if_pos rfl] at hr0
      have hstep0 : step n ⟨st, asg, d, wl⟩ =
          StepRes.cont ⟨st.set d 1, asg.set d (some 0), d + 1, wlA⟩ :=
        step_try0_ok n st asg d wl wlA (by omega) hs0 hu0
      have hseg0 := segStep n _ _ hstep0
      have hIH0 := (ih (d + 1) (st.set d 1) (asg.set d (some 0)) wlA ys0 wlB asgB
        (by omega) (by omega) hlen1 hzero1 hr0).1 (by omega)
      rw [Nat.add_sub_cancel, hself1] at hIH0
      -- now at ⟨st.set d 1, asgB, d, wlB⟩
      cases ok1 with
      | true =>
        rw [if_pos rfl] at hr1
        have hstep1 : step n ⟨st.set d 1, asgB, d, wlB⟩ =
            StepRes.cont ⟨st.set d 3, asgB.set d (some 1), d + 1, wlC⟩ := by
          rw [step_next n (st.set d 1) asgB d wlB (by omega) hs1]
          rw [stepTrue_ok (st.set d 1) asgB d wlB wlC false hs1 hu1]
          rw [hst13]
        have hseg1 := segStep n _ _ hstep1
        have hIH1 := (ih (d + 1) (st.set d 3) (asgB.set d (some 1)) wlC ys1 wlD asgD
          (by omega) (by omega) hlen3 hzero3 hr1).1 (by omega)
        rw [Nat.add_sub_cancel, hself3] at hIH1
        have hchain := segComp n _ _ _ _ _ _ _
          (segComp n _ _ _ _ _ _ _
            (segComp n _ _ _ _ _ _ _ hseg0 hIH0) hseg1) hIH1
        have hchain2 := segCongr n _ _ _ (ys0 ++ ys1) _ hchain (by simp)
        have hcost : 1 + segCost k + 1 + segCost k + 1 ≤ segCost (k + 1) := by
          rw [segCost_succ]
          omega
        exact hfinish asgD wlD _ hchain2 hcost
      | false =>
        rw [if_neg (by simp), Prod.mk.injEq, Prod.mk.injEq] at hr1
        obtain ⟨hy1, hwD, haD⟩ := hr1
        have hstep1 : step n ⟨st.set d 1, asgB, d, wlB⟩ =
            StepRes.cont ⟨st.set d 3, (asgB.set d (some 1)).set d none, d, wlC⟩ := by
          rw [step_next n (st.set d 1) asgB d wlB (by omega) hs1]
          rw [stepTrue_fail (st.set d 1) asgB d wlB wlC false hs1 hu1]
          rw [hst13]
        have hseg1 := segStep n _ _ hstep1
        have hchain := segComp n _ _ _ _ _ _ _
          (segComp n _ _ _ _ _ _ _ hseg0 hIH0) hseg1
        have hchain2 := segCongr n _ _ _ (ys0 ++ ys1) _ hchain
          (by simp [← hy1])
        have hcost : 1 + segCost k + 1 + 1 ≤ segCost (k + 1) := by
          rw [segCost_succ]
          have := segCost_pos k
          omega
        have hres := hfinish ((asgB.set d (some 1)).set d none) wlC _ hchain2 hcost
        have heqa : ((asgB.set d (some 1)).set d none).set d none =
            asgD.set d none := by
          rw [List.set_set, ← haD]
        rw [heqa, hwD] at hres
        exact hres
    | false =>
      rw [if_neg (by simp), Prod.mk.injEq, Prod.mk.injEq] at hr0
      obtain ⟨hy0, hwB, haB⟩ := hr0
      -- normalise the `a = 1` update to the iterative assignment form
      have hnorm : ((asg.set d (some 0)).set d none).set d (some 1) =
          asgB.set d (some 1) := by
        rw [List.set_set, haB]
      have hs1B : ((st.set d 1)).getD d 0 = 1 := hs1
      cases ok1 with
      | true =>
        rw [if_pos rfl] at hr1
        have hu1it : update_watchlist
            (((asg.set d (some 0)).set d none).set d (some 1)) (d <<< 1 ||| 1)
            wlA = (true, wlC) := by
          rw [hnorm, hwB]
          exact hu1
        have hstep0 : step n ⟨st, asg, d, wl⟩ =
            StepRes.cont ⟨st.set d 3,
              ((asg.set d (some 0)).set d none).set d (some 1), d + 1, wlC⟩ := by
          rw [step_try0_fail n st asg d wl wlA (by omega) hs0 hu0]
          rw [stepTrue_ok (st.set d 1) ((asg.set d (some 0)).set d none) d wlA wlC
            true hs1B hu1it]
          rw [hst13]
        rw [hnorm] at hstep0
        have hseg0 := segStep n _ _ hstep0
        have hIH1 := (ih (d + 1) (st.set d 3) (asgB.set d (some 1)) wlC ys1 wlD asgD
          (by omega) (by omega) hlen3 hzero3 hr1).1 (by omega)
        rw [Nat.add_sub_cancel, hself3] at hIH1
        have hchain := segComp n _ _ _ _ _ _ _ hseg0 hIH1
        have hchain2 := segCongr n _ _ _ (ys0 ++ ys1) _ hchain
          (by simp [← hy0])
        have hcost : 1 + segCost k + 1 ≤ segCost (k + 1) := by
          rw [segCost_succ]
          have := segCost_pos k
          omega
        exact hfinish asgD wlD _ hchain2 hcost
      | false =>
        rw [if_neg (by simp), Prod.mk.injEq, Prod.mk.injEq] at hr1
        obtain ⟨hy1, hwD, haD⟩ := hr1
        have hu1it : update_watchlist
            (((asg.set d (some 0)).set d none).set d (some 1)) (d <<< 1 ||| 1)
            wlA = (false, wlC) := by
          rw [hnorm, hwB]
          exact hu1
        have hstep0 : step n ⟨st, asg, d, wl⟩ =
            StepRes.cont ⟨st.set d 3,
              (((asg.set d (some 0)).set d none).set d (some 1)).set d none,
              d, wlC⟩ := by
          rw [step_try0_fail n st asg d wl wlA (by omega) hs0 hu0]
          rw [stepTrue_fail (st.set d 1) ((asg.set d (some 0)).set d none) d wlA wlC
            true hs1B hu1it]
          rw [hst13]
        rw [hnorm] at hstep0
        have hseg0 := segStep n _ _ hstep0
        have hchain2 := segCongr n _ _ _ (ys0 ++ ys1) _ hseg0
          (by simp [← hy0, ← hy1])
        have hcost : 1 + 1 ≤ segCost (k + 1) := by
          rw [segCost_succ]
          have := segCost_pos k
          omega
        have hres := hfinish ((asgB.set d (some 1)).set d none) wlC _ hchain2 hcost
        have heqa : ((asgB.set d (some 1)).set d none).set d none =
            asgD.set d none := by
          rw [List.set_set, ← haD]
        rw [heqa, hwD] at hres
        exact hres

end iterative_sat

/-- With fuel `2 ^ (n + 2)` the iterative loop terminates from the
initial state and produces exactly the yields of the recursive solver. -/
theorem iter_run_eq (clauses : List Clause) (n : Nat) (hn : 1 ≤ n) :
    iterative_sat.run n (2 ^ (n + 2)) (iterative_sat.initState clauses n) =
      some (recursive_sat.solveAux n (List.replicate n none)
        (setup_watchlist clauses n) 0).1 := by
  rcases hq : recursive_sat.solveAux n (List.replicate n none)
      (setup_watchlist clauses n) 0 with ⟨ys, wlOut, asgOut⟩
  have hsim := (iterative_sat.sim n hn n 0 (List.replicate n 0)
    (List.replicate n none) (setup_watchlist clauses n) ys wlOut asgOut
    (by omega) (by omega) (by simp)
    (fun i _ => getD_replicate_self n i 0) hq).2 rfl
  have h1 := hsim 3
  have he : 3 + iterative_sat.segCost n = 2 ^ (n + 2) := by
    unfold iterative_sat.segCost
    have h2 : (4 : Nat) ≤ 2 ^ (n + 2) := by
      calc (4 : Nat) = 2 ^ 2 := by norm_num
      _ ≤ 2 ^ (n + 2) := Nat.pow_le_pow_right (by omega) (by omega)
    omega
  rw [he] at h1
  rw [iterative_sat.initState]
  exact h1

/-- The two solver variants produce the same list of assignments, in
the same order. -/
theorem iter_eq_rec (clauses : List Clause) (n : Nat) :
    iterative_sat.solve clauses n = recursive_sat.solve clauses n := by
  unfold iterative_sat.solve recursive_sat.solve
  by_cases hn : n = 0
  · subst hn
    have hempty : (setup_watchlist clauses 0).isEmpty = true := by
      have hlen := setup_watchlist_len clauses 0
      simp only [Nat.mul_zero] at hlen
      cases hc : setup_watchlist clauses 0 with
      | nil => rfl
      | cons a t => rw [hc] at hlen; simp at hlen
    simp only [hempty, if_true]
  · have hn1 : 1 ≤ n := by omega
    have hne : (setup_watchlist clauses n).isEmpty = false :=
      isEmpty_false_of_length_pos _ (by rw [setup_watchlist_len]; omega)
    simp only [hne, Bool.false_eq_true, if_false]
    rw [iter_run_eq clauses n hn1]
    rfl

/-! ## Remaining helpers for the claim theorems -/

/-- Negation does not change a literal's variable. -/
theorem xor1_var (l : Nat) : (l ^^^ 1) >>> 1 = l >>> 1 := by
  have hd := lit_decomp l
  have hb := lit_pol_lt l
  calc (l ^^^ 1) >>> 1 = (2 * (l >>> 1) + (l &&& 1) ^^^ 1) >>> 1 := by rw [← hd]
  _ = (2 * (l >>> 1) + (1 - (l &&& 1))) >>> 1 := by rw [add_xor_one _ _ hb]
  _ = l >>> 1 := lit_var _ _ (by omega)

/-- Negation flips a literal's polarity bit. -/
theorem xor1_pol (l : Nat) : (l ^^^ 1) &&& 1 = (l &&& 1) ^^^ 1 := by
  have hd := lit_decomp l
  have hb := lit_pol_lt l
  calc (l ^^^ 1) &&& 1 = (2 * (l >>> 1) + (l &&& 1) ^^^ 1) &&& 1 := by rw [← hd]
  _ = (2 * (l >>> 1) + (1 - (l &&& 1))) &&& 1 := by rw [add_xor_one _ _ hb]
  _ = 1 - (l &&& 1) := lit_pol _ _ (by omega)
  _ = (l &&& 1) ^^^ 1 := (xor_one_eq _ hb).symm

/-- The bounded form of `asgValues` (decidable on concrete input)
implies the unbounded one. -/
theorem asgValues_of_bounded (asg : Assignment)
    (h : ∀ i, i < asg.length → ∀ v, asg.getD i none = some v → v < 2) :
    asgValues asg := by
  intro i v hv
  by_cases hi : i < asg.length
  · exact h i hi v hv
  · rw [getD_of_length_le asg i none (by omega)] at hv
    exact absurd hv (by simp)

/-- On failure the front clause of the false literal's queue is the
contradicted one: every literal fails the alternative test.  (Needs no
invariant.) -/
theorem update_go_fail_front (asg : Assignment) (fl : Nat) :
    ∀ fuel wl wlOut, update_go asg fl fuel wl = some (false, wlOut) →
    ∃ c rest, wlOut.getD fl [] = c :: rest ∧ find_alternative asg c = none := by
  intro fuel
  induction fuel with
  | zero => intro wl wlOut h; rw [update_go_zero] at h; exact absurd h (by simp)
  | succ f ih =>
    intro wl wlOut h
    cases hq : wl.getD fl [] with
    | nil =>
      rw [update_go_nil asg fl f wl hq] at h
      simp at h
    | cons clause rest =>
      cases hf : find_alternative asg clause with
      | none =>
        rw [update_go_stuck asg fl f wl clause rest hq hf] at h
        simp only [Option.some.injEq, Prod.mk.injEq] at h
        exact ⟨clause, rest, by rw [← h.2]; exact hq, hf⟩
      | some alt =>
        rw [update_go_cons asg fl f wl clause rest alt hq hf] at h
        exact ih _ wlOut h

/-- The frame property carried to the `update_watchlist` wrapper. -/
theorem update_watchlist_frame (asg : Assignment) (fl : Nat)
    (wl wlOut : Watchlist) (r : Bool) (hfalse : litFalse asg fl)
    (hbound : ∀ i, i < wl.length → ∀ c ∈ wl.getD i [], ∀ l ∈ c, l < wl.length)
    (hrun : update_watchlist asg fl wl = (r, wlOut)) :
    (∀ j, j ≠ fl → ∃ extra, wlOut.getD j [] = wl.getD j [] ++ extra ∧
        ∀ c ∈ extra, c ∈ wl.getD fl []) ∧
      (∃ removed, wl.getD fl [] = removed ++ wlOut.getD fl []) ∧
      (∀ c, occ wlOut c = occ wl c) ∧ wlOut.length = wl.length := by
  have hb : ∀ i c, c ∈ wl.getD i [] → ∀ l ∈ c, l < wl.length := by
    intro i c hc
    by_cases hi : i < wl.length
    · exact hbound i hi c hc
    · rw [getD_of_length_le wl i [] (by omega)] at hc
      exact absurd hc (by simp)
  apply update_go_frame asg fl ((wl.getD fl []).length + 1) wl wlOut r hfalse hb
  rw [← update_watchlist_eq_go asg fl wl hfalse, hrun]

/-- The failure shape carried to the `update_watchlist` wrapper. -/
theorem update_watchlist_fail_front (asg : Assignment) (fl : Nat)
    (wl wlOut : Watchlist) (hfalse : litFalse asg fl)
    (hrun : update_watchlist asg fl wl = (false, wlOut)) :
    ∃ c rest, wlOut.getD fl [] = c :: rest ∧ find_alternative asg c = none := by
  apply update_go_fail_front asg fl ((wl.getD fl []).length + 1) wl wlOut
  rw [← update_watchlist_eq_go asg fl wl hfalse, hrun]

namespace recursive_sat

theorem solve_nil (clauses : List Clause) : solve clauses 0 = [] := by
  unfold solve
  have hempty : (setup_watchlist clauses 0).isEmpty = true := by
    have hlen := setup_watchlist_len clauses 0
    simp only [Nat.mul_zero] at hlen
    cases hc : setup_watchlist clauses 0 with
    | nil => rfl
    | cons a t => rw [hc] at hlen; simp at hlen
  simp only [hempty, if_true]

end recursive_sat

/-! ## The claims -/

/-- C9: literal-encoding algebra.  With `encode(v,p) = v*2 + p`
(`p = 1` for negated), decoding the variable by right shift gives `v`,
decoding the polarity by the low bit gives `p`, and negation by XOR
with 1 is an involution. -/
theorem claim_C9 (v p : Nat) (hp : p < 2) :
    literal_variable (encode_literal v p) = v ∧
      literal_polarity (encode_literal v p) = p ∧
      (∀ l : Nat, negate_literal (negate_literal l) = l) := by
  unfold literal_variable literal_polarity encode_literal negate_literal
  refine ⟨?_, ?_, ?_⟩
  · rw [shiftLeft_lor_eq v p hp]
    exact lit_var v p hp
  · rw [shiftLeft_lor_eq v p hp]
    exact lit_pol v p hp
  · intro l
    rw [Nat.xor_assoc]
    simp

theorem claim_C9_witness :
    literal_variable (encode_literal 3 1) = 3 ∧
      literal_polarity (encode_literal 3 1) = 1 ∧
      (∀ l : Nat, negate_literal (negate_literal l) = l) :=
  claim_C9 3 1 (by decide)

/-- C7: the empty instance (zero clauses, zero variables).  Both solver
variants take the documented degenerate-case convention: the empty
watchlist is rejected (`if not watchlist`) and no solutions are
yielded, which is the alternative the claim permits. -/
theorem claim_C7 :
    (iterative_sat.solve [] 0 = [[]] ∨ iterative_sat.solve [] 0 = []) ∧
      (recursive_sat.solve [] 0 = [[]] ∨ recursive_sat.solve [] 0 = []) :=
  ⟨Or.inr rfl, Or.inr rfl⟩

/-- C3: the iterative and the recursive solver yield the same sequence
of satisfying assignments — the same solutions in the same enumeration
order — for every instance. -/
theorem claim_C3 (clauses : List Clause) (n : Nat) :
    iterative_sat.solve clauses n = recursive_sat.solve clauses n :=
  iter_eq_rec clauses n

/-- C1: soundness.  Every assignment yielded by either solver variant
is total over variables `0..n-1` and satisfies every clause of the
instance: each clause has a literal whose variable's value equals the
literal's required polarity. -/
theorem claim_C1 (clauses : List Clause) (n : Nat) (hwf : WFInstance clauses n)
    (τ : Assignment)
    (hτ : τ ∈ iterative_sat.solve clauses n ∨ τ ∈ recursive_sat.solve clauses n) :
    totalAsg n τ ∧ instSat τ clauses := by
  rw [iter_eq_rec clauses n] at hτ
  have hτ2 : τ ∈ recursive_sat.solve clauses n := by
    rcases hτ with h | h <;> exact h
  by_cases hn : n = 0
  · rw [hn, recursive_sat.solve_nil clauses] at hτ2
    exact absurd hτ2 (List.not_mem_nil τ)
  · exact ((recursive_sat.solve_spec clauses n hwf (by omega)).1 τ).mp hτ2

theorem claim_C1_witness :
    totalAsg 2 [some 0, some 0] ∧ instSat [some 0, some 0] [[0, 3]] :=
  claim_C1 [[0, 3]] 2 (by decide) [some 0, some 0]
    (Or.inr (((recursive_sat.solve_spec [[0, 3]] 2 (by decide) (by omega)).1
      [some 0, some 0]).mpr (by decide)))

/-- C2: completeness without duplicates.  For an instance with at least
one variable, the set of assignments yielded by either solver equals
the set of all total assignments over the `n` variables satisfying
every clause, and no assignment is yielded twice. -/
theorem claim_C2 (clauses : List Clause) (n : Nat) (hwf : WFInstance clauses n)
    (hn : 1 ≤ n) :
    (∀ τ, (τ ∈ iterative_sat.solve clauses n ↔ (totalAsg n τ ∧ instSat τ clauses)) ∧
        (τ ∈ recursive_sat.solve clauses n ↔ (totalAsg n τ ∧ instSat τ clauses))) ∧
      (iterative_sat.solve clauses n).Nodup ∧
      (recursive_sat.solve clauses n).Nodup := by
  obtain ⟨h1, h2⟩ := recursive_sat.solve_spec clauses n hwf hn
  refine ⟨fun τ => ⟨?_, h1 τ⟩, ?_, h2⟩
  · rw [iter_eq_rec clauses n]
    exact h1 τ
  · rw [iter_eq_rec clauses n]
    exact h2

theorem claim_C2_witness :
    [some 0, some 0] ∈ iterative_sat.solve [[0, 3]] 2 ↔
      (totalAsg 2 [some 0, some 0] ∧ instSat [some 0, some 0] [[0, 3]]) :=
  ((claim_C2 [[0, 3]] 2 (by decide) (by omega)).1 [some 0, some 0]).1

/-- C8: termination and finiteness.  Both solvers yield at most `2 ^ n`
assignments, and the iterative loop terminates: from the initial state
`2 ^ (n + 2)` iterations of the loop body suffice to drain the search
(the model's fuel is never exhausted). -/
theorem claim_C8 (clauses : List Clause) (n : Nat) :
    (iterative_sat.solve clauses n).length ≤ 2 ^ n ∧
      (recursive_sat.solve clauses n).length ≤ 2 ^ n ∧
      (1 ≤ n →
        iterative_sat.run n (2 ^ (n + 2)) (iterative_sat.initState clauses n) ≠
          none) := by
  refine ⟨?_, recursive_sat.solve_len clauses n, ?_⟩
  · rw [iter_eq_rec clauses n]
    exact recursive_sat.solve_len clauses n
  · intro hn
    rw [iter_run_eq clauses n hn]
    simp

theorem claim_C8_witness :
    (iterative_sat.solve [[0]] 1).length ≤ 2 ^ 1 ∧
      (recursive_sat.solve [[0]] 1).length ≤ 2 ^ 1 ∧
      (1 ≤ 1 →
        iterative_sat.run 1 (2 ^ (1 + 2)) (iterative_sat.initState [[0]] 1) ≠
          none) :=
  claim_C8 [[0]] 1

/-- C4 counterexample.  In the search on the instance `[[0], [0,2]]`
with two variables (reachable state: depth 0, value 0 just tried), the
update on falsified literal 0 fails on the unit clause `[0]`, and the
clause `[0, 2]` behind it remains in queue 0, whose literal is false —
yet no contradiction was reported for `[0, 2]` (it still has a
watchable alternative).  So the claim's exception covers too little. -/
theorem claim_C4_counterexample :
    setup_watchlist [[0], [0, 2]] 2 = [[[0], [0, 2]], [], [], []] ∧
      update_watchlist [some 0, none] 0 [[[0], [0, 2]], [], [], []] =
        (false, [[[0], [0, 2]], [], [], []]) ∧
      [0, 2] ∈ ([[[0], [0, 2]], [], [], []] : Watchlist).getD 0 [] ∧
      litFalse [some 0, none] 0 ∧
      find_alternative [some 0, none] [0, 2] = some 2 := by decide

/-- C4 (amended): starting from `setup_watchlist` every clause appears
in exactly one queue (`occ` equals its multiplicity in the clause list)
and no queue's literal is false; a successful `update_watchlist`
restores this in full, while a failed one preserves it except at the
failed literal's queue, which retains the contradicted clause at its
front followed by the unprocessed clauses. -/
theorem claim_C4 (clauses : List Clause) (n : Nat)
    (hwf : WFInstance clauses n) :
    WLInv clauses n (setup_watchlist clauses n) (List.replicate n none) ∧
      (∀ asg fl wl wlOut, litFalse asg fl → WLInvX clauses n wl asg fl →
        (update_watchlist asg fl wl = (true, wlOut) →
          WLInv clauses n wlOut asg) ∧
        (update_watchlist asg fl wl = (false, wlOut) →
          WLInvX clauses n wlOut asg fl ∧
            ∃ c rest, wlOut.getD fl [] = c :: rest ∧
              find_alternative asg c = none)) := by
  refine ⟨setup_watchlist_inv clauses n hwf, ?_⟩
  intro asg fl wl wlOut hfalse hinvX
  exact ⟨fun h => update_watchlist_success clauses n asg fl wl wlOut hwf hfalse hinvX h,
    fun h => update_watchlist_fail clauses n asg fl wl wlOut hwf hfalse hinvX h⟩

theorem claim_C4_witness :
    WLInv [[0]] 1 (setup_watchlist [[0]] 1) (List.replicate 1 none) :=
  (claim_C4 [[0]] 1 (by decide)).1

/-- C5: no undo on backtrack.  A run of `update_watchlist` only moves
clauses out of the false literal's queue: every other queue is only
appended to (with clauses taken from the false literal's queue), the
false literal's queue only shrinks from the front, and the clause
population and the number of queues are unchanged.  The backtracking
step of the iterative solver, which unbinds `assignment[d]`, passes the
watchlist through untouched — so a watch move is never reversed. -/
theorem claim_C5 (asg : Assignment) (fl : Nat) (wl wlOut : Watchlist)
    (r : Bool) (hfalse : litFalse asg fl)
    (hbound : ∀ i, i < wl.length → ∀ c ∈ wl.getD i [], ∀ l ∈ c, l < wl.length)
    (hrun : update_watchlist asg fl wl = (r, wlOut)) :
    ((∀ j, j ≠ fl → ∃ extra, wlOut.getD j [] = wl.getD j [] ++ extra ∧
        ∀ c ∈ extra, c ∈ wl.getD fl []) ∧
      (∃ removed, wl.getD fl [] = removed ++ wlOut.getD fl []) ∧
      (∀ c, occ wlOut c = occ wl c) ∧ wlOut.length = wl.length) ∧
    (∀ m st asg2 d wl2, d ≠ m → List.getD st d 0 = 3 → d ≠ 0 →
      iterative_sat.step m ⟨st, asg2, d, wl2⟩ =
        iterative_sat.StepRes.cont
          ⟨st.set d 0, asg2.set d none, d - 1, wl2⟩) := by
  refine ⟨update_watchlist_frame asg fl wl wlOut r hfalse hbound hrun, ?_⟩
  intro m st asg2 d wl2 hdm hs hd0
  rw [iterative_sat.step_exhausted m st asg2 d wl2 hdm hs]
  exact iterative_sat.stepTrue_backtrack st asg2 d wl2 hs hd0

theorem claim_C5_witness :
    ((∀ j, j ≠ 0 → ∃ extra,
        ([[[0]], []] : Watchlist).getD j [] =
          ([[[0]], []] : Watchlist).getD j [] ++ extra ∧
        ∀ c ∈ extra, c ∈ ([[[0]], []] : Watchlist).getD 0 []) ∧
      (∃ removed, ([[[0]], []] : Watchlist).getD 0 [] =
        removed ++ ([[[0]], []] : Watchlist).getD 0 []) ∧
      (∀ c, occ [[[0]], []] c = occ [[[0]], []] c) ∧
      ([[[0]], []] : Watchlist).length = ([[[0]], []] : Watchlist).length) ∧
    (∀ m st asg2 d wl2, d ≠ m → List.getD st d 0 = 3 → d ≠ 0 →
      iterative_sat.step m ⟨st, asg2, d, wl2⟩ =
        iterative_sat.StepRes.cont
          ⟨st.set d 0, asg2.set d none, d - 1, wl2⟩) :=
  claim_C5 [some 0] 0 [[[0]], []] [[[0]], []] false (by decide) (by decide)
    (by decide)

/-- C6 counterexample: on a failing update the contradicted clause is
NOT removed from the queue — `del watchlist[false_literal][0]` is only
executed in the found-alternative branch.  Here the unit clause `[0]`
is contradicted and remains in queue 0 after the failure report. -/
theorem claim_C6_counterexample :
    update_watchlist [some 0] 0 [[[0]], []] = (false, [[[0]], []]) ∧
      [0] ∈ ([[[0]], []] : Watchlist).getD 0 [] ∧
      litFalse [some 0] 0 := by decide

/-- C6 (amended): when `update_watchlist` reports failure for literal
`L`, the queue for `L` holds the contradicted clause at its front —
still present, not removed — followed by the clauses behind it, which
remain unprocessed; the queue is a suffix of the original (the clauses
ahead of the contradicted one were moved out). -/
theorem claim_C6 (asg : Assignment) (fl : Nat) (wl wlOut : Watchlist)
    (hfalse : litFalse asg fl)
    (hbound : ∀ i, i < wl.length → ∀ c ∈ wl.getD i [], ∀ l ∈ c, l < wl.length)
    (hrun : update_watchlist asg fl wl = (false, wlOut)) :
    ∃ c rest, wlOut.getD fl [] = c :: rest ∧ find_alternative asg c = none ∧
      ∃ removed, wl.getD fl [] = removed ++ (c :: rest) := by
  obtain ⟨c, rest, hq, hf⟩ :=
    update_watchlist_fail_front asg fl wl wlOut hfalse hrun
  obtain ⟨_, ⟨removed, hrem⟩, _, _⟩ :=
    update_watchlist_frame asg fl wl wlOut false hfalse hbound hrun
  exact ⟨c, rest, hq, hf, removed, by rw [hrem, hq]⟩

theorem claim_C6_witness :
    ∃ c rest, ([[[0]], []] : Watchlist).getD 0 [] = c :: rest ∧
      find_alternative [some 0] c = none ∧
      ∃ removed, ([[[0]], []] : Watchlist).getD 0 [] = removed ++ (c :: rest) :=
  claim_C6 [some 0] 0 [[[0]], []] [[[0]], []] (by decide) (by decide) (by decide)

/-- C10: tautological clauses never fail.  If a clause contains a
literal together with its negation then, under any assignment with
values in `{0, 1}`, the alternative scan always finds a watchable
literal; consequently the clause for which `update_watchlist` reports a
contradiction is never tautological. -/
theorem claim_C10 (asg : Assignment)
    (hv : ∀ i, i < asg.length → ∀ v, asg.getD i none = some v → v < 2) :
    (∀ c : Clause, (∃ l, l ∈ c ∧ (l ^^^ 1) ∈ c) →
      (find_alternative asg c).isSome = true) ∧
    (∀ fl wl wlOut, litFalse asg fl →
      update_watchlist asg fl wl = (false, wlOut) →
      ∀ c rest, wlOut.getD fl [] = c :: rest →
        ¬ ∃ l, l ∈ c ∧ (l ^^^ 1) ∈ c) := by
  have hv2 := asgValues_of_bounded asg hv
  have part1 : ∀ c : Clause, (∃ l, l ∈ c ∧ (l ^^^ 1) ∈ c) →
      (find_alternative asg c).isSome = true := by
    rintro c ⟨l, hl, hnl⟩
    rw [find_alternative, List.find?_isSome]
    cases hx : asg.getD (l >>> 1) none with
    | none =>
      exact ⟨l, hl, (is_watchable_iff asg l).mpr (Or.inl hx)⟩
    | some x =>
      have hxlt := hv2 _ _ hx
      by_cases hxb : x = (l &&& 1) ^^^ 1
      · exact ⟨l, hl, (is_watchable_iff asg l).mpr (Or.inr (by rw [hx, hxb]))⟩
      · refine ⟨l ^^^ 1, hnl, (is_watchable_iff asg (l ^^^ 1)).mpr (Or.inr ?_)⟩
        rw [xor1_var, hx, xor1_pol, Nat.xor_assoc]
        simp only [Nat.xor_self, Nat.xor_zero]
        have hb := lit_pol_lt l
        rw [xor_one_eq _ hb] at hxb
        have : x = l &&& 1 := by omega
        rw [this]
  refine ⟨part1, ?_⟩
  intro fl wl wlOut hfalse hrun c rest hq htaut
  obtain ⟨c2, rest2, hq2, hf2⟩ :=
    update_watchlist_fail_front asg fl wl wlOut hfalse hrun
  rw [hq] at hq2
  have hcc : c = c2 := by
    simp only [List.cons.injEq] at hq2
    exact hq2.1
  rw [← hcc] at hf2
  have := part1 c htaut
  rw [find_alternative] at hf2
  rw [find_alternative, hf2] at this
  simp at this

theorem claim_C10_witness :
    (∀ c : Clause, (∃ l, l ∈ c ∧ (l ^^^ 1) ∈ c) →
      (find_alternative [some 0] c).isSome = true) ∧
    (∀ fl wl wlOut, litFalse [some 0] fl →
      update_watchlist [some 0] fl wl = (false, wlOut) →
      ∀ c rest, wlOut.getD fl [] = c :: rest →
        ¬ ∃ l, l ∈ c ∧ (l ^^^ 1) ∈ c) :=
  claim_C10 [some 0] (by decide)
